import Mathlib

set_option maxHeartbeats 1000000

deriving instance DecidableEq for Except

/-!
Verification of the configuration reconciliation and identity engine of
terraform-provider-kong: the consumer-plugin-config resource
(`validateDataJSON`, `normalizeDataJSON`, `buildId`, `splitIdIntoFields`,
`generatePluginConfig`, `consumerPluginConfigJsonToString`, create/read flows)
and the plugin resource (`createKongPluginRequestFromResourceData`,
`pluginConfigJsonToString`, read flow).

The Go code manipulates JSON text through `encoding/json`'s
`json.Unmarshal` into `map[string]interface{}` and `json.Marshal` of such
maps.  We model that library behaviour explicitly:

* `Json` is the value tree produced by decoding.  Numeric literals are kept
  as their source token (Go stores `float64`; the float conversion itself —
  overflow of huge exponents, shortest round-trip re-rendering — is outside
  this model, so a token is carried verbatim through decode and encode).
* Go maps are unordered; `json.Marshal` emits their keys sorted
  byte-lexicographically.  We represent a decoded `map[string]interface{}`
  by its canonical listing: an association list strictly sorted by key
  (duplicate keys in the input text overwrite, as in Go).
* `marshalJson` mirrors Go's encoder: key-sorted objects, the default
  HTML-escaping (`<`, `>`, `&` become `<` …), control characters as
  `\u00XX`, and `\n`, `\r`, `\t`, `\"`, `\\` shorthands.
* `parseValue` mirrors Go's scanner/decoder: JSON whitespace, strict number
  grammar, string escapes including `\uXXXX` with surrogate-pair handling,
  no trailing input.  It is fuel-indexed for termination; the entry point
  supplies fuel that is provably sufficient.
-/

/-- JSON value tree as decoded by Go's `encoding/json` into `interface\x7b\x7d`.
Numbers carry their source token verbatim (see module comment). -/
inductive Json where
  | null : Json
  | bool (b : Bool) : Json
  | num (tok : String) : Json
  | str (s : String) : Json
  | arr (elems : List Json) : Json
  | obj (kvs : List (String × Json)) : Json

mutual

/-- Boolean equality on `Json` (structural). -/
def beqJson : Json → Json → Bool
  | .null, .null => true
  | .bool a, .bool b => a == b
  | .num a, .num b => a == b
  | .str a, .str b => a == b
  | .arr xs, .arr ys => beqJsonList xs ys
  | .obj xs, .obj ys => beqJsonKvs xs ys
  | _, _ => false

def beqJsonList : List Json → List Json → Bool
  | [], [] => true
  | x :: xs, y :: ys => beqJson x y && beqJsonList xs ys
  | _, _ => false

def beqJsonKvs : List (String × Json) → List (String × Json) → Bool
  | [], [] => true
  | (k1, v1) :: xs, (k2, v2) :: ys => k1 == k2 && beqJson v1 v2 && beqJsonKvs xs ys
  | _, _ => false

end

mutual

theorem beqJson_iff : ∀ a b : Json, beqJson a b = true ↔ a = b
  | .null, b => by cases b <;> simp [beqJson]
  | .bool a, b => by cases b <;> simp [beqJson]
  | .num a, b => by cases b <;> simp [beqJson]
  | .str a, b => by cases b <;> simp [beqJson]
  | .arr xs, b => by
    cases b with
    | arr ys => simp only [beqJson]; rw [beqJsonList_iff xs ys]; simp
    | null => simp [beqJson]
    | bool b => simp [beqJson]
    | num t => simp [beqJson]
    | str s => simp [beqJson]
    | obj kvs => simp [beqJson]
  | .obj xs, b => by
    cases b with
    | obj ys => simp only [beqJson]; rw [beqJsonKvs_iff xs ys]; simp
    | null => simp [beqJson]
    | bool b => simp [beqJson]
    | num t => simp [beqJson]
    | str s => simp [beqJson]
    | arr xs => simp [beqJson]

theorem beqJsonList_iff : ∀ xs ys : List Json, beqJsonList xs ys = true ↔ xs = ys
  | [], ys => by cases ys <;> simp [beqJsonList]
  | x :: xs, ys => by
    cases ys with
    | nil => simp [beqJsonList]
    | cons y ys =>
      simp only [beqJsonList, Bool.and_eq_true, beqJson_iff x y, beqJsonList_iff xs ys]
      simp

theorem beqJsonKvs_iff : ∀ xs ys : List (String × Json), beqJsonKvs xs ys = true ↔ xs = ys
  | [], ys => by cases ys <;> simp [beqJsonKvs]
  | (k1, v1) :: xs, ys => by
    cases ys with
    | nil => simp [beqJsonKvs]
    | cons y ys =>
      cases y with
      | mk k2 v2 =>
        simp only [beqJsonKvs, Bool.and_eq_true, beqJson_iff v1 v2, beqJsonKvs_iff xs ys]
        simp [and_assoc]

end

instance : DecidableEq Json := fun a b =>
  decidable_of_iff (beqJson a b = true) (beqJson_iff a b)

/-- Lowercase hex digit, as used by Go's JSON encoder (`"0123456789abcdef"`). -/
def hexDigit (n : Nat) : Char :=
  if n < 10 then Char.ofNat ('0'.toNat + n) else Char.ofNat ('a'.toNat + n - 10)

/-- Escape one character the way Go's `encoding/json` encoder (with its
default HTML escaping) writes string contents. -/
def escapeChar (c : Char) : List Char :=
  if c = '"' then ['\\', '"']
  else if c = '\\' then ['\\', '\\']
  else if c = '\n' then ['\\', 'n']
  else if c = '\r' then ['\\', 'r']
  else if c = '\t' then ['\\', 't']
  else if c.toNat < 0x20 then
    ['\\', 'u', '0', '0', hexDigit (c.toNat / 16), hexDigit (c.toNat % 16)]
  else if c = '<' then ['\\', 'u', '0', '0', '3', 'c']
  else if c = '>' then ['\\', 'u', '0', '0', '3', 'e']
  else if c = '&' then ['\\', 'u', '0', '0', '2', '6']
  else if c.toNat = 0x2028 then ['\\', 'u', '2', '0', '2', '8']
  else if c.toNat = 0x2029 then ['\\', 'u', '2', '0', '2', '9']
  else [c]

/-- Escaped body of a JSON string (no surrounding quotes). -/
def escapeBody : List Char → List Char
  | [] => []
  | c :: cs => escapeChar c ++ escapeBody cs

/-- A JSON string literal: quotes around the escaped body. -/
def quoteString (s : String) : List Char :=
  '"' :: escapeBody s.toList ++ ['"']

mutual

/-- Go's `json.Marshal` on a decoded value.  Objects stand for Go maps in
canonical (key-sorted) listing, which is exactly the key order Go's encoder
emits. -/
def marshalJson : Json → List Char
  | .null => ['n', 'u', 'l', 'l']
  | .bool b => if b then ['t', 'r', 'u', 'e'] else ['f', 'a', 'l', 's', 'e']
  | .num tok => tok.toList
  | .str s => quoteString s
  | .arr xs => '[' :: (marshalElems xs ++ [']'])
  | .obj kvs => '{' :: (marshalMembers kvs ++ ['}'])

/-- Comma-separated array elements. -/
def marshalElems : List Json → List Char
  | [] => []
  | [x] => marshalJson x
  | x :: y :: xs => marshalJson x ++ ',' :: marshalElems (y :: xs)

/-- Comma-separated `"key":value` members. -/
def marshalMembers : List (String × Json) → List Char
  | [] => []
  | [kv] => quoteString kv.1 ++ ':' :: marshalJson kv.2
  | kv :: kv' :: kvs => quoteString kv.1 ++ ':' :: marshalJson kv.2 ++ ',' :: marshalMembers (kv' :: kvs)

end

/-- JSON whitespace, as accepted by Go's scanner. -/
def isWsChar (c : Char) : Bool :=
  c = ' ' || c = '\t' || c = '\n' || c = '\r'

/-- Skip leading JSON whitespace. -/
def skipWs : List Char → List Char
  | [] => []
  | c :: cs => if isWsChar c then skipWs cs else c :: cs

/-- Value of one hex digit, upper or lower case. -/
def hexVal (c : Char) : Option Nat :=
  if '0' ≤ c ∧ c ≤ '9' then some (c.toNat - '0'.toNat)
  else if 'a' ≤ c ∧ c ≤ 'f' then some (c.toNat - 'a'.toNat + 10)
  else if 'A' ≤ c ∧ c ≤ 'F' then some (c.toNat - 'A'.toNat + 10)
  else none

/-- Four hex digits to a code unit, as Go's `getu4`. -/
def hex4 (c1 c2 c3 c4 : Char) : Option Nat :=
  match hexVal c1, hexVal c2, hexVal c3, hexVal c4 with
  | some a, some b, some c, some d => some (((a * 16 + b) * 16 + c) * 16 + d)
  | _, _, _, _ => none

/-- Scanner mode inside a JSON string literal: plain body, right after a
backslash, or right after `\u`. -/
inductive StrMode where
  | body : StrMode
  | escape : StrMode
  | unicode : StrMode

/-- Fuel-indexed scanner for the body of a JSON string literal after the
opening quote, as decoded by Go's `unquote`: returns the decoded characters
and the input remaining after the closing quote.  Matches Go on escapes
(including `\uXXXX` with surrogate-pair combination and U+FFFD for unpaired
surrogates) and rejects raw control characters.  Every recursive call
consumes at least one input character, so fuel `length + 1` always
suffices. -/
def parseStrF : Nat → StrMode → List Char → Option (List Char × List Char)
  | 0, _, _ => none
  | fuel + 1, .body, cs =>
    match cs with
    | [] => none
    | c :: cs2 =>
      if c = '"' then some ([], cs2)
      else if c = '\\' then parseStrF fuel .escape cs2
      else if c.toNat < 0x20 then none
      else (parseStrF fuel .body cs2).map fun r => (c :: r.1, r.2)
  | fuel + 1, .escape, cs =>
    match cs with
    | [] => none
    | e :: cs2 =>
      if e = '"' ∨ e = '\\' ∨ e = '/' then (parseStrF fuel .body cs2).map fun r => (e :: r.1, r.2)
      else if e = 'b' then (parseStrF fuel .body cs2).map fun r => ('\x08' :: r.1, r.2)
      else if e = 'f' then (parseStrF fuel .body cs2).map fun r => ('\x0c' :: r.1, r.2)
      else if e = 'n' then (parseStrF fuel .body cs2).map fun r => ('\n' :: r.1, r.2)
      else if e = 'r' then (parseStrF fuel .body cs2).map fun r => ('\r' :: r.1, r.2)
      else if e = 't' then (parseStrF fuel .body cs2).map fun r => ('\t' :: r.1, r.2)
      else if e = 'u' then parseStrF fuel .unicode cs2
      else none
  | fuel + 1, .unicode, cs =>
    match cs with
    | c1 :: c2 :: c3 :: c4 :: cs3 =>
      match hex4 c1 c2 c3 c4 with
      | none => none
      | some n =>
        if 0xD800 ≤ n ∧ n ≤ 0xDBFF then
          match cs3 with
          | b1 :: b2 :: d1 :: d2 :: d3 :: d4 :: cs5 =>
            if b1 = '\\' ∧ b2 = 'u' then
              match hex4 d1 d2 d3 d4 with
              | some n2 =>
                if 0xDC00 ≤ n2 ∧ n2 ≤ 0xDFFF then
                  (parseStrF fuel .body cs5).map fun r =>
                    (Char.ofNat (0x10000 + (n - 0xD800) * 0x400 + (n2 - 0xDC00)) :: r.1, r.2)
                else
                  (parseStrF fuel .body (b1 :: b2 :: d1 :: d2 :: d3 :: d4 :: cs5)).map
                    fun r => ('�' :: r.1, r.2)
              | none =>
                (parseStrF fuel .body (b1 :: b2 :: d1 :: d2 :: d3 :: d4 :: cs5)).map
                  fun r => ('�' :: r.1, r.2)
            else
              (parseStrF fuel .body (b1 :: b2 :: d1 :: d2 :: d3 :: d4 :: cs5)).map
                fun r => ('�' :: r.1, r.2)
          | cs4 => (parseStrF fuel .body cs4).map fun r => ('�' :: r.1, r.2)
        else if 0xDC00 ≤ n ∧ n ≤ 0xDFFF then
          (parseStrF fuel .body cs3).map fun r => ('�' :: r.1, r.2)
        else (parseStrF fuel .body cs3).map fun r => (Char.ofNat n :: r.1, r.2)
    | _ => none

/-- Body of a JSON string literal after the opening quote, as decoded by
Go's `unquote`.  The fuel `length + 1` is always sufficient. -/
def parseStringBody (cs : List Char) : Option (List Char × List Char) :=
  parseStrF (cs.length + 1) .body cs

/-- The mandatory digit run of an exponent: consume one or more digits. -/
def parseExpDigits (acc : List Char) : List Char → Option (List Char × List Char)
  | [] => none
  | d :: t3 =>
    if d.isDigit then
      some (acc ++ (d :: t3).takeWhile Char.isDigit, (d :: t3).dropWhile Char.isDigit)
    else none

/-- After `e`/`E`: an optional sign, then the digit run. -/
def parseExpAfterE (acc : List Char) : List Char → Option (List Char × List Char)
  | [] => none
  | s :: t2 =>
    if s = '+' ∨ s = '-' then parseExpDigits (acc ++ [s]) t2
    else parseExpDigits acc (s :: t2)

/-- Exponent part of a number, given the token read so far.  Mirrors the
states of Go's number scanner. -/
def parseNumExp (acc : List Char) : List Char → Option (List Char × List Char)
  | [] => some (acc, [])
  | c :: t =>
    if c = 'e' ∨ c = 'E' then parseExpAfterE (acc ++ [c]) t
    else some (acc, c :: t)

/-- The mandatory digit run of a fraction, then the exponent. -/
def parseFracDigits (acc : List Char) : List Char → Option (List Char × List Char)
  | [] => none
  | d :: t3 =>
    if d.isDigit then
      parseNumExp (acc ++ (d :: t3).takeWhile Char.isDigit) ((d :: t3).dropWhile Char.isDigit)
    else none

/-- Fraction part of a number, then exponent. -/
def parseNumFrac (acc : List Char) : List Char → Option (List Char × List Char)
  | [] => parseNumExp acc []
  | c :: t =>
    if c = '.' then parseFracDigits (acc ++ [c]) t
    else parseNumExp acc (c :: t)

/-- Integer part (`0`, or nonzero digit then digits), then fraction and
exponent. -/
def parseIntPart (acc : List Char) : List Char → Option (List Char × List Char)
  | [] => none
  | c :: t =>
    if c = '0' then parseNumFrac (acc ++ [c]) t
    else if c.isDigit then
      parseNumFrac (acc ++ c :: t.takeWhile Char.isDigit) (t.dropWhile Char.isDigit)
    else none

/-- A JSON number token per Go's scanner: `-? (0 | [1-9][0-9]*) frac? exp?`.
Returns the token and the remaining input. -/
def parseNumber : List Char → Option (List Char × List Char)
  | [] => none
  | c :: t =>
    if c = '-' then parseIntPart [c] t
    else parseIntPart [] (c :: t)

mutual

/-- One JSON value, fuel-indexed: Go's scanner/decoder for a value.  Skips
leading whitespace, then dispatches on the first character. -/
def parseValue : Nat → List Char → Option (Json × List Char)
  | 0, _ => none
  | fuel + 1, cs =>
    match skipWs cs with
    | [] => none
    | c :: cs1 =>
      if c = '{' then
        match skipWs cs1 with
        | '}' :: cs2 => some (.obj [], cs2)
        | cs2 =>
          match parseMembers fuel cs2 with
          | some (kvs, rest) => some (.obj kvs, rest)
          | none => none
      else if c = '[' then
        match skipWs cs1 with
        | ']' :: cs2 => some (.arr [], cs2)
        | cs2 =>
          match parseElems fuel cs2 with
          | some (vs, rest) => some (.arr vs, rest)
          | none => none
      else if c = '"' then
        match parseStringBody cs1 with
        | some (content, rest) => some (.str content.asString, rest)
        | none => none
      else if c = 't' then
        match cs1 with
        | 'r' :: 'u' :: 'e' :: rest => some (.bool true, rest)
        | _ => none
      else if c = 'f' then
        match cs1 with
        | 'a' :: 'l' :: 's' :: 'e' :: rest => some (.bool false, rest)
        | _ => none
      else if c = 'n' then
        match cs1 with
        | 'u' :: 'l' :: 'l' :: rest => some (.null, rest)
        | _ => none
      else
        match parseNumber (c :: cs1) with
        | some (tok, rest) => some (.num tok.asString, rest)
        | none => none

/-- Members of an object after `{` (whitespace already skipped; first member
must start here — Go rejects a trailing comma). -/
def parseMembers : Nat → List Char → Option (List (String × Json) × List Char)
  | 0, _ => none
  | fuel + 1, cs =>
    match cs with
    | '"' :: cs1 =>
      match parseStringBody cs1 with
      | some (key, cs2) =>
        match skipWs cs2 with
        | ':' :: cs3 =>
          match parseValue fuel cs3 with
          | some (v, cs4) =>
            match skipWs cs4 with
            | ',' :: cs5 =>
              match parseMembers fuel (skipWs cs5) with
              | some (kvs, rest) => some ((key.asString, v) :: kvs, rest)
              | none => none
            | '}' :: cs5 => some ([(key.asString, v)], cs5)
            | _ => none
          | none => none
        | _ => none
      | none => none
    | _ => none

/-- Elements of an array after `[` (first element must start here). -/
def parseElems : Nat → List Char → Option (List Json × List Char)
  | 0, _ => none
  | fuel + 1, cs =>
    match parseValue fuel cs with
    | some (v, cs1) =>
      match skipWs cs1 with
      | ',' :: cs2 =>
        match parseElems fuel cs2 with
        | some (vs, rest) => some (v :: vs, rest)
        | none => none
      | ']' :: cs2 => some (v :: [], cs2)
      | _ => none
    | none => none

end

/-- Go's `json.Unmarshal` seen as a whole-input parse: one value, possibly
surrounded by whitespace, nothing after it.  The fuel `2 * length + 2` is
sufficient for any input (each two fuel steps consume at least one input
character). -/
def parseJson (s : String) : Option Json :=
  match parseValue (2 * s.toList.length + 2) s.toList with
  | some (v, rest) => if skipWs rest = [] then some v else none
  | none => none

/-- A valid number token: `parseNumber` consumes it exactly. -/
def numValid (t : String) : Bool :=
  decide (parseNumber t.toList = some (t.toList, []))

/-- Lexicographic strict comparison of character lists, i.e. the byte-wise
string order `sort.Strings` uses (UTF-8 byte order coincides with code-point
order). -/
def charListLt : List Char → List Char → Bool
  | _, [] => false
  | [], _ :: _ => true
  | a :: as, b :: bs => if a < b then true else if b < a then false else charListLt as bs

/-- The key order of Go's JSON encoder for map keys. -/
def strLtb (a b : String) : Bool :=
  charListLt a.toList b.toList

/-- Insert a key/value pair into the canonical (strictly key-sorted) listing
of a Go `map[string]interface{}`; an existing binding of the same key is
overwritten, as Go map assignment does. -/
def insertSorted (k : String) (v : Json) : List (String × Json) → List (String × Json)
  | [] => [(k, v)]
  | (k', v') :: rest =>
    if strLtb k k' then (k, v) :: (k', v') :: rest
    else if k = k' then (k, v) :: rest
    else (k', v') :: insertSorted k v rest

mutual

/-- Go's conversion of a decoded JSON value into an `interface{}` tree:
nested objects become (unordered) maps, represented here by their canonical
key-sorted listing, with later duplicate keys overwriting earlier ones. -/
def goVal : Json → Json
  | .null => .null
  | .bool b => .bool b
  | .num t => .num t
  | .str s => .str s
  | .arr xs => .arr (goValList xs)
  | .obj kvs => .obj (goValObj kvs [])

def goValList : List Json → List Json
  | [] => []
  | x :: xs => goVal x :: goValList xs

/-- Build the map for an object's members: fold left over the members in
textual order, converting each value and assigning it into the map. -/
def goValObj : List (String × Json) → List (String × Json) → List (String × Json)
  | [], acc => acc
  | (k, v) :: rest, acc => goValObj rest (insertSorted k (goVal v) acc)

end

mutual

/-- Size of a JSON value: a fuel bound for the parser. -/
def sizeJ : Json → Nat
  | .null => 1
  | .bool _ => 1
  | .num _ => 1
  | .str _ => 1
  | .arr xs => sizeJL xs + 1
  | .obj kvs => sizeJK kvs + 1

/-- Combined size of array elements. -/
def sizeJL : List Json → Nat
  | [] => 0
  | x :: xs => sizeJ x + sizeJL xs + 1

/-- Combined size of object members. -/
def sizeJK : List (String × Json) → Nat
  | [] => 0
  | kv :: kvs => sizeJ kv.2 + sizeJK kvs + 1

end

mutual

/-- Every number token inside the value is a token Go's scanner accepts.
This holds of everything the decoder produces, and is exactly what the
encoder needs for its number output to re-parse. -/
def numsOk : Json → Bool
  | .null => true
  | .bool _ => true
  | .num t => numValid t
  | .str _ => true
  | .arr xs => numsOkList xs
  | .obj kvs => numsOkKvs kvs

/-- `numsOk` on every array element. -/
def numsOkList : List Json → Bool
  | [] => true
  | x :: xs => numsOk x && numsOkList xs

/-- `numsOk` on every member value. -/
def numsOkKvs : List (String × Json) → Bool
  | [] => true
  | kv :: kvs => numsOk kv.2 && numsOkKvs kvs

end

/-- Strictly-ascending key order of a canonical map listing. -/
def keysSorted : List (String × Json) → Bool
  | [] => true
  | [_] => true
  | kv :: kv' :: rest => strLtb kv.1 kv'.1 && keysSorted (kv' :: rest)

mutual

/-- The value is in the canonical form produced by decoding into Go maps:
every object listing is strictly key-sorted, recursively. -/
def wfJson : Json → Bool
  | .null => true
  | .bool _ => true
  | .num _ => true
  | .str _ => true
  | .arr xs => wfJsonList xs
  | .obj kvs => keysSorted kvs && wfJsonKvs kvs

/-- `wfJson` on every array element. -/
def wfJsonList : List Json → Bool
  | [] => true
  | x :: xs => wfJson x && wfJsonList xs

/-- `wfJson` on every member value. -/
def wfJsonKvs : List (String × Json) → Bool
  | [] => true
  | kv :: kvs => wfJson kv.2 && wfJsonKvs kvs

end

/-- `json.Unmarshal(blob, &m)` for `m : map[string]interface{}` with initial
value `init` (`none` models a nil map, `some entries` a non-nil map).  Go
decodes a JSON object into the map, leaves the map untouched on the JSON
literal `null`, and reports an error for any other JSON shape or malformed
text.  Error strings abstract Go's messages. -/
def unmarshalIntoMap (init : Option (List (String × Json))) (s : String) :
    Except String (Option (List (String × Json))) :=
  match parseJson s with
  | none => .error "invalid JSON"
  | some (.obj kvs) =>
    .ok (some (goValObj kvs (match init with | some m0 => m0 | none => [])))
  | some .null => .ok init
  | some _ => .error "json: cannot unmarshal value into map[string]interface{}"

/-- Go `json.Marshal` of a possibly-nil `map[string]interface{}`: a nil map
encodes as `null`, otherwise as an object. -/
def marshalGoMap (m : Option (List (String × Json))) : String :=
  match m with
  | none => "null"
  | some kvs => (marshalJson (.obj kvs)).asString

/-- `validateDataJSON` from the consumer-plugin-config resource: unmarshal
into an (empty, non-nil) `map[string]interface{}` and return the errors; an
empty list means validation succeeded. -/
def validateDataJSON (dataJSON : String) : List String :=
  match unmarshalIntoMap (some []) dataJSON with
  | .error e => [e]
  | .ok _ => []

/-- `normalizeDataJSON` from the consumer-plugin-config resource: unmarshal
into an (empty, non-nil) map; on error, log and return `""`; otherwise
re-marshal the map.  (Go's `json.Marshal` cannot fail on a decoded
`map[string]interface{}`, so that dead error branch has no counterpart.) -/
def normalizeDataJSON (dataJSON : String) : String :=
  match unmarshalIntoMap (some []) dataJSON with
  | .error _ => ""
  | .ok m => marshalGoMap m

/-- `idFields` from the consumer-plugin-config resource. -/
structure idFields where
  consumerId : String
  pluginName : String
  id : String
deriving DecidableEq, Repr

/-- `buildId`: join the three components with `|`. -/
def buildId (consumerId pluginName configId : String) : String :=
  consumerId ++ "|" ++ pluginName ++ "|" ++ configId

/-- Go's `strings.Split(s, "|")`: for the one-character separator this is a
split at every occurrence of `'|'`; splitting the empty string gives
`[""]`. -/
def splitPipe (s : String) : List String :=
  (s.toList.splitOn '|').map List.asString

/-- `splitIdIntoFields`: require exactly three pipe-separated fields. -/
def splitIdIntoFields (id : String) : Except String idFields :=
  match splitPipe id with
  | [a, b, c] => .ok { consumerId := a, pluginName := b, id := c }
  | _ =>
    .error ("failed to calculate consumer plugin config id, should be pipe separated as consumerId|pluginName|id found: " ++ id)

/-- One iteration of the `key=value&…` buffer loop of
`generatePluginConfig`: write the pair, then `&` iff the map has more than
one entry and this (1-based) position is not the last. -/
def kvJoinStep (mapSize : Nat) (acc : String × Nat) (kv : String × String) : String × Nat :=
  let withPair := acc.1 ++ kv.1 ++ "=" ++ kv.2
  let withSep := if mapSize > 1 && acc.2 != mapSize then withPair ++ "&" else withPair
  (withSep, acc.2 + 1)

/-- The `key=value&…` buffer loop of `generatePluginConfig`: `position`
starts at 1. -/
def kvJoin (m : List (String × String)) : String :=
  (m.foldl (kvJoinStep m.length) ("", 1)).1

/-- `generatePluginConfig`: fail when both shapes are populated, encode the
map as `key=value&…` when present, otherwise pass the blob through.  The map
argument is `none` for a nil Go map; Go map iteration order is unspecified,
so the listing order of `m` stands for one iteration order. -/
def generatePluginConfig (configMap : Option (List (String × String))) (configJSON : String) :
    Except String String :=
  if configMap.isSome && configJSON != "" then
    .error "Cannot declare both config and config_json"
  else
    match configMap with
    | some m => .ok (kvJoin m)
    | none => .ok configJSON

/-- Modelled from the spec: the helper `contains` (defined outside the two
source files) — membership of a string in the computed-field registry
(spec §2 ComputedFieldRegistry). -/
def contains (properties : List String) (key : String) : Bool :=
  properties.any (fun p => p == key)

/-- The filtering loop shared by both drift filters: iterate over the
(canonically listed) remote map and assign every key that is not in the
registry into a fresh map.  Per spec §9 the registry is passed as an explicit
parameter (the Go global `computedPluginProperties` is defined outside the
two source files). -/
def stripComputed (excluded : List String) (data : List (String × Json)) :
    List (String × Json) :=
  data.foldl
    (fun marshalledData kv =>
      if !contains excluded kv.1 then insertSorted kv.1 kv.2 marshalledData
      else marshalledData)
    []

/-- `pluginConfigJsonToString` from the plugin resource (its `data` argument
is the remote plugin's already-decoded configuration map). -/
def pluginConfigJsonToString (excluded : List String) (data : List (String × Json)) : String :=
  (marshalJson (.obj (stripComputed excluded data))).asString

/-- `consumerPluginConfigJsonToString`: decode the schemaless body blob into
an (empty, non-nil) map, propagating the unmarshal error, then strip computed
properties and re-marshal. -/
def consumerPluginConfigJsonToString (excluded : List String) (body : String) :
    Except String String :=
  match unmarshalIntoMap (some []) body with
  | .error e => .error e
  | .ok data =>
    .ok ((marshalJson (.obj (stripComputed excluded (match data with | some m => m | none => [])))).asString)

/-- `gokong.PluginRequest` as filled by the plugin resource. -/
structure PluginRequest where
  name : String
  apiId : String
  consumerId : String
  serviceId : String
  routeId : String
  config : Option (List (String × Json))
deriving DecidableEq

/-- The plugin resource's `schema.ResourceData`, restricted to what
`createKongPluginRequestFromResourceData` and the read flow touch.  The
helpers `readStringFromResource`/`readMapFromResource` (defined outside the
two source files) are modelled from the spec as plain attribute access:
string attributes read as strings, and the map attribute reads as `none`
(a nil Go map) when unset.  `d.GetOk("config_json")` is true exactly when
the stored string is non-empty. -/
structure PluginResourceData where
  id : String
  name : String
  apiId : String
  consumerId : String
  serviceId : String
  routeId : String
  config : Option (List (String × Json))
  configJson : String
deriving DecidableEq

/-- `createKongPluginRequestFromResourceData`: copy the scalar attributes and
the structured map; only when the map is nil and `config_json` is set, parse
the blob into the request's config (a `null` blob leaves the nil map).  The
second component is the returned error. -/
def createKongPluginRequestFromResourceData (d : PluginResourceData) :
    PluginRequest × Option String :=
  let pluginRequest : PluginRequest :=
    { name := d.name, apiId := d.apiId, consumerId := d.consumerId,
      serviceId := d.serviceId, routeId := d.routeId, config := d.config }
  match pluginRequest.config with
  | some _ => (pluginRequest, none)
  | none =>
    if d.configJson ≠ "" then
      match unmarshalIntoMap none d.configJson with
      | .error e => (pluginRequest, some ("failed to unmarshal config_json, err: " ++ e))
      | .ok cfg => ({ pluginRequest with config := cfg }, none)
    else (pluginRequest, none)

/-- A `gokong.Plugin` returned by the admin API. -/
structure PluginResponse where
  id : String
  name : String
  apiId : String
  consumerId : String
  serviceId : String
  routeId : String
  config : List (String × Json)
deriving DecidableEq

/-- `resourceKongPluginRead`, with the remote call's outcome passed in as
`getByIdResp` (spec §6 collaborator `getById`: error, missing, or plugin).
Result: resource state after the call, the returned error, and the names of
remote calls made. -/
def resourceKongPluginRead (d : PluginResourceData)
    (getByIdResp : Except String (Option PluginResponse)) (excluded : List String) :
    PluginResourceData × Option String × List String :=
  match getByIdResp with
  | .error e => (d, some ("could not find kong plugin: " ++ e), ["GetById"])
  | .ok none => ({ d with id := "" }, none, ["GetById"])
  | .ok (some plugin) =>
    ({ d with
        name := plugin.name
        apiId := plugin.apiId
        serviceId := plugin.serviceId
        routeId := plugin.routeId
        consumerId := plugin.consumerId
        configJson := pluginConfigJsonToString excluded plugin.config },
      none, ["GetById"])

/-- A `gokong.ConsumerPluginConfig` (remote id plus raw stored body). -/
structure ConsumerPluginConfigResponse where
  id : String
  body : String
deriving DecidableEq

/-- The consumer-plugin-config resource's `schema.ResourceData`, restricted
to the attributes the create/read flows touch (same modelling of the
read helpers as for `PluginResourceData`). -/
structure ConsumerPluginState where
  id : String
  consumerId : String
  pluginName : String
  config : Option (List (String × String))
  configJson : String
deriving DecidableEq

/-- `resourceKongConsumerPluginConfigRead`, with the remote call's outcome
passed in as `getResp`.  Result: state after, returned error, calls made.
A nil remote config is surfaced as an error and the local id is left as it
was (no `SetId("")` on this path). -/
def resourceKongConsumerPluginConfigRead (d : ConsumerPluginState)
    (getResp : Except String (Option ConsumerPluginConfigResponse)) (excluded : List String) :
    ConsumerPluginState × Option String × List String :=
  match splitIdIntoFields d.id with
  | .error e => (d, some e, [])
  | .ok fields =>
    match getResp with
    | .error e =>
      (d, some ("could not find kong consumer plugin config with id: " ++ d.id ++ " error: " ++ e),
        ["GetPluginConfig"])
    | .ok none => (d, some "could not configure plugin for kong consumer", ["GetPluginConfig"])
    | .ok (some consumerPluginConfig) =>
      let d' := { d with
        consumerId := fields.consumerId
        pluginName := fields.pluginName }
      match consumerPluginConfigJsonToString excluded consumerPluginConfig.body with
      | .error e =>
        (d', some ("could not read in consumer plugin config body: " ++ d.id ++ " error: " ++ e),
          ["GetPluginConfig"])
      | .ok upstreamJson => ({ d' with configJson := upstreamJson }, none, ["GetPluginConfig"])

/-- `resourceKongConsumerPluginConfigCreate`, with the two possible remote
calls' outcomes passed in (`createResp` for `CreatePluginConfig`, `getResp`
for the `GetPluginConfig` issued by the final read).  Result: state after,
returned error, and the remote calls made in order. -/
def resourceKongConsumerPluginConfigCreate (d : ConsumerPluginState)
    (createResp : Except String (Option ConsumerPluginConfigResponse))
    (getResp : Except String (Option ConsumerPluginConfigResponse)) (excluded : List String) :
    ConsumerPluginState × Option String × List String :=
  match generatePluginConfig d.config d.configJson with
  | .error e => (d, some ("error configuring plugin: " ++ e), [])
  | .ok _config =>
    match createResp with
    | .error e =>
      (d, some ("failed to create kong consumer plugin config, error: " ++ e),
        ["CreatePluginConfig"])
    | .ok consumerPluginConfig =>
      let d' :=
        { d with id :=
            match consumerPluginConfig with
            | none => ""
            | some c => buildId d.consumerId d.pluginName c.id }
      let readResult := resourceKongConsumerPluginConfigRead d' getResp excluded
      (readResult.1, readResult.2.1, "CreatePluginConfig" :: readResult.2.2)

/-- A sample scoped-resource state used by concrete witnesses. -/
def sampleConsumerState : ConsumerPluginState :=
  { id := "", consumerId := "c1", pluginName := "rate-limiting"
    config := some [("minute", "10")], configJson := "\x7b\"x\":1\x7d" }

/-- A sample plugin-resource state used by concrete witnesses. -/
def samplePluginState : PluginResourceData :=
  { id := "p1", name := "n", apiId := "", consumerId := "", serviceId := "", routeId := ""
    config := none, configJson := "" }

theorem toList_append (a b : String) : (a ++ b).toList = a.toList ++ b.toList :=
  String.data_append a b

theorem splitPipe_buildId (a b c : String)
    (ha : '|' ∉ a.toList) (hb : '|' ∉ b.toList) (hc : '|' ∉ c.toList) :
    splitPipe (buildId a b c) = [a, b, c] := by
  unfold splitPipe buildId
  have hpipe : ("|" : String).toList = ['|'] := rfl
  have h1 : (a ++ "|" ++ b ++ "|" ++ c).toList
      = List.intercalate ['|'] [a.toList, b.toList, c.toList] := by
    simp [toList_append, hpipe, List.intercalate, List.intersperse]
  rw [h1, List.splitOn_intercalate]
  · simp
    exact ⟨String.asString_toList a, String.asString_toList b, String.asString_toList c⟩
  · intro l hl
    simp only [List.mem_cons, List.mem_singleton, List.not_mem_nil] at hl
    rcases hl with rfl | rfl | rfl | h
    · exact ha
    · exact hb
    · exact hc
    · cases h
  · simp

/-- C2: for any component strings containing no `|`, parsing the built
composite identifier returns exactly the original triple:
`splitIdIntoFields (buildId a b c) = ok ⟨a, b, c⟩`. -/
theorem splitIdIntoFields_buildId_roundtrip (a b c : String)
    (ha : '|' ∉ a.toList) (hb : '|' ∉ b.toList) (hc : '|' ∉ c.toList) :
    splitIdIntoFields (buildId a b c) = .ok ⟨a, b, c⟩ := by
  unfold splitIdIntoFields
  rw [splitPipe_buildId a b c ha hb hc]

theorem splitIdIntoFields_buildId_roundtrip_witness :
    '|' ∉ ("c1" : String).toList ∧ '|' ∉ ("rate-limiting" : String).toList ∧
      '|' ∉ ("abc" : String).toList ∧
      splitIdIntoFields (buildId "c1" "rate-limiting" "abc") = .ok ⟨"c1", "rate-limiting", "abc"⟩ :=
  ⟨by decide, by decide, by decide,
    splitIdIntoFields_buildId_roundtrip "c1" "rate-limiting" "abc" (by decide) (by decide) (by decide)⟩

/-- C3: splitting succeeds exactly when the id has three pipe-separated
parts, in which case the fields are those parts verbatim (no content
validation, empty parts included); otherwise the malformed-identifier error
is returned. -/
theorem splitIdIntoFields_characterization (id : String) :
    ((splitPipe id).length = 3 →
      splitIdIntoFields id
        = .ok ⟨(splitPipe id)[0]!, (splitPipe id)[1]!, (splitPipe id)[2]!⟩)
    ∧ ((splitPipe id).length ≠ 3 →
      splitIdIntoFields id
        = .error ("failed to calculate consumer plugin config id, should be pipe separated as consumerId|pluginName|id found: " ++ id))
    ∧ ((∃ fields, splitIdIntoFields id = .ok fields) ↔ (splitPipe id).length = 3) := by
  unfold splitIdIntoFields
  rcases h : splitPipe id with _ | ⟨a, _ | ⟨b, _ | ⟨c, _ | ⟨d, t⟩⟩⟩⟩ <;> simp [h]

theorem splitIdIntoFields_characterization_witness :
    (splitPipe "a||").length = 3 ∧ splitIdIntoFields "a||" = .ok ⟨"a", "", ""⟩ :=
  ⟨by decide, by
    have h := (splitIdIntoFields_characterization "a||").1 (by decide)
    exact h⟩

/-- C10: whenever the blob fails to unmarshal into a
`map[string]interface{}`, `normalizeDataJSON` returns the empty string (the
failure is only logged; nothing is raised and the input is not echoed
back). -/
theorem normalizeDataJSON_eq_empty_of_unmarshal_error (s e : String)
    (h : unmarshalIntoMap (some []) s = .error e) : normalizeDataJSON s = "" := by
  unfold normalizeDataJSON
  rw [h]

theorem normalizeDataJSON_eq_empty_of_unmarshal_error_witness :
    unmarshalIntoMap (some []) "[1]"
        = .error "json: cannot unmarshal value into map[string]interface{}" ∧
      normalizeDataJSON "[1]" = "" :=
  ⟨by decide,
    normalizeDataJSON_eq_empty_of_unmarshal_error "[1]"
      "json: cannot unmarshal value into map[string]interface{}" (by decide)⟩

/-- C1: when the scoped resource carries both a structured config map and a
non-empty `config_json` blob, create fails with the conflicting-config error
and performs no remote call at all (in particular `CreatePluginConfig` is
never invoked). -/
theorem scoped_create_conflict_fails_before_remote (d : ConsumerPluginState)
    (createResp getResp : Except String (Option ConsumerPluginConfigResponse))
    (excluded : List String) (m : List (String × String))
    (hM : d.config = some m) (hJ : d.configJson ≠ "") :
    resourceKongConsumerPluginConfigCreate d createResp getResp excluded
      = (d, some "error configuring plugin: Cannot declare both config and config_json", []) := by
  unfold resourceKongConsumerPluginConfigCreate generatePluginConfig
  rw [hM]
  simp [hJ]

theorem scoped_create_conflict_fails_before_remote_witness :
    sampleConsumerState.config = some [("minute", "10")] ∧ sampleConsumerState.configJson ≠ "" ∧
      resourceKongConsumerPluginConfigCreate sampleConsumerState
          (.ok (some { id := "abc", body := "{}" })) (.ok (some { id := "abc", body := "{}" })) []
        = (sampleConsumerState,
            some "error configuring plugin: Cannot declare both config and config_json", []) :=
  ⟨rfl, by decide,
    scoped_create_conflict_fails_before_remote sampleConsumerState
      (.ok (some { id := "abc", body := "{}" })) (.ok (some { id := "abc", body := "{}" }))
      [] [("minute", "10")] rfl (by decide)⟩

/-- C9: a missing remote object on read is handled asymmetrically.  For the
primary plugin resource, `GetById` returning nil is a non-error outcome that
clears the local id; for the scoped consumer-plugin-config resource,
`GetPluginConfig` returning nil is surfaced as an error and the local id is
left untouched. -/
theorem read_missing_remote_asymmetry (d : PluginResourceData) (d' : ConsumerPluginState)
    (excluded : List String) (fields : idFields)
    (hsplit : splitIdIntoFields d'.id = .ok fields) :
    resourceKongPluginRead d (.ok none) excluded = ({ d with id := "" }, none, ["GetById"])
    ∧ resourceKongConsumerPluginConfigRead d' (.ok none) excluded
        = (d', some "could not configure plugin for kong consumer", ["GetPluginConfig"]) := by
  constructor
  · rfl
  · unfold resourceKongConsumerPluginConfigRead
    rw [hsplit]

theorem read_missing_remote_asymmetry_witness :
    splitIdIntoFields "c1|rate-limiting|abc" = .ok ⟨"c1", "rate-limiting", "abc"⟩ ∧
      resourceKongPluginRead samplePluginState (.ok none) []
        = ({ samplePluginState with id := "" }, none, ["GetById"]) ∧
      resourceKongConsumerPluginConfigRead
          { sampleConsumerState with id := "c1|rate-limiting|abc" } (.ok none) []
        = ({ sampleConsumerState with id := "c1|rate-limiting|abc" },
            some "could not configure plugin for kong consumer", ["GetPluginConfig"]) := by
  refine ⟨by decide, ?_, ?_⟩
  · exact (read_missing_remote_asymmetry samplePluginState
      { sampleConsumerState with id := "c1|rate-limiting|abc" } [] ⟨"c1", "rate-limiting", "abc"⟩
      (by decide)).1
  · exact (read_missing_remote_asymmetry samplePluginState
      { sampleConsumerState with id := "c1|rate-limiting|abc" } [] ⟨"c1", "rate-limiting", "abc"⟩
      (by decide)).2

/-- The output shape the spec describes for the scoped encoder: one
`key=value` segment per entry, `&` between consecutive pairs, no trailing
`&`, values verbatim. -/
def ampJoin : List (String × String) → String
  | [] => ""
  | [kv] => kv.1 ++ "=" ++ kv.2
  | kv :: kv' :: rest => kv.1 ++ "=" ++ kv.2 ++ "&" ++ ampJoin (kv' :: rest)

theorem kvJoin_loop (n : Nat) :
    ∀ (rest : List (String × String)) (acc : String) (pos : Nat),
      rest ≠ [] → pos + rest.length = n + 1 → 1 < n →
      (rest.foldl (kvJoinStep n) (acc, pos)).1 = acc ++ ampJoin rest
  | [], _, _, h, _, _ => absurd rfl h
  | [kv], acc, pos, _, hpos, hn => by
    have hp : pos = n := by simp at hpos; omega
    simp [List.foldl, kvJoinStep, ampJoin, hp, String.append_assoc]
  | kv :: kv' :: rest, acc, pos, _, hpos, hn => by
    have hp : pos ≠ n := by simp at hpos; omega
    have hstep :
        kvJoinStep n (acc, pos) kv = (acc ++ kv.1 ++ "=" ++ kv.2 ++ "&", pos + 1) := by
      simp [kvJoinStep, hn, hp]
    have hrec := kvJoin_loop n (kv' :: rest) (acc ++ kv.1 ++ "=" ++ kv.2 ++ "&") (pos + 1)
      (by simp) (by simp at hpos ⊢; omega) hn
    calc ((kv :: kv' :: rest).foldl (kvJoinStep n) (acc, pos)).1
        = ((kv' :: rest).foldl (kvJoinStep n) (kvJoinStep n (acc, pos) kv)).1 := rfl
      _ = ((kv' :: rest).foldl (kvJoinStep n) (acc ++ kv.1 ++ "=" ++ kv.2 ++ "&", pos + 1)).1 := by
          rw [hstep]
      _ = acc ++ kv.1 ++ "=" ++ kv.2 ++ "&" ++ ampJoin (kv' :: rest) := hrec
      _ = acc ++ ampJoin (kv :: kv' :: rest) := by
          simp [ampJoin, String.append_assoc]

/-- C7: the scoped encoder, given a non-empty structured map and an empty
blob, produces exactly the `key=value` pairs of the map joined with `&`
between consecutive pairs (no trailing separator, values verbatim); given a
nil map, it passes the blob through unchanged. -/
theorem generatePluginConfig_output_shape (m : List (String × String)) (configJSON : String)
    (hm : m ≠ []) :
    generatePluginConfig (some m) "" = .ok (ampJoin m)
    ∧ generatePluginConfig none configJSON = .ok configJSON := by
  constructor
  · show (if (some m).isSome && ("" != "") then _ else _) = _
    simp only [Option.isSome_some, bne_self_eq_false, Bool.and_false, if_false]
    show Except.ok (kvJoin m) = _
    match m, hm with
    | [kv], _ => simp [kvJoin, kvJoinStep, ampJoin, String.append_assoc]
    | kv :: kv' :: rest, _ =>
      rw [kvJoin, kvJoin_loop ((kv :: kv' :: rest).length) (kv :: kv' :: rest) "" 1
        (by simp) (by simp_arith) (by simp)]
      rw [String.empty_append]
  · rfl

theorem generatePluginConfig_output_shape_witness :
    ([("minute", "10")] : List (String × String)) ≠ [] ∧
      generatePluginConfig (some [("minute", "10")]) "" = .ok "minute=10" ∧
      generatePluginConfig none "\x7b\"minute\":10\x7d" = .ok "\x7b\"minute\":10\x7d" := by
  have h := generatePluginConfig_output_shape [("minute", "10")] "\x7b\"minute\":10\x7d" (by decide)
  exact ⟨by decide, h.1, h.2⟩

/-- C6 (primary encoder precedence): a non-nil structured map is copied into
the outbound request unconditionally; with a nil map and a non-empty blob the
request's config is whatever the blob unmarshals to; with a nil map and an
empty blob the config stays nil. -/
theorem createKongPluginRequest_config_resolution (d : PluginResourceData) :
    (∀ m, d.config = some m →
      (createKongPluginRequestFromResourceData d).1.config = some m
        ∧ (createKongPluginRequestFromResourceData d).2 = none)
    ∧ (d.config = none → d.configJson ≠ "" →
        ∀ cfg, unmarshalIntoMap none d.configJson = .ok cfg →
          (createKongPluginRequestFromResourceData d).1.config = cfg
            ∧ (createKongPluginRequestFromResourceData d).2 = none)
    ∧ (d.config = none → d.configJson = "" →
        (createKongPluginRequestFromResourceData d).1.config = none) := by
  refine ⟨?_, ?_, ?_⟩
  · intro m hm
    unfold createKongPluginRequestFromResourceData
    simp [hm]
  · intro hm hj cfg hcfg
    unfold createKongPluginRequestFromResourceData
    simp [hm, hj, hcfg]
  · intro hm hj
    unfold createKongPluginRequestFromResourceData
    simp [hm, hj]

theorem createKongPluginRequest_config_resolution_witness :
    ({ samplePluginState with configJson := "\x7b\"a\":1\x7d" } : PluginResourceData).config = none ∧
      ({ samplePluginState with configJson := "\x7b\"a\":1\x7d" } : PluginResourceData).configJson ≠ "" ∧
      unmarshalIntoMap none "\x7b\"a\":1\x7d" = .ok (some [("a", .num "1")]) ∧
      (createKongPluginRequestFromResourceData
          { samplePluginState with configJson := "\x7b\"a\":1\x7d" }).1.config
        = some [("a", .num "1")] :=
  ⟨rfl, by decide, by decide,
    ((createKongPluginRequest_config_resolution
        { samplePluginState with configJson := "\x7b\"a\":1\x7d" }).2.1 rfl (by decide)
      (some [("a", .num "1")]) (by decide)).1⟩

/-- C4 counterexample: the blob `"null"` passes `validateDataJSON` (Go's
`Unmarshal` treats the JSON literal `null` as a no-op on the target map) yet
does not parse as a JSON object, so "succeeds iff the blob parses as a JSON
object" fails. -/
theorem validateDataJSON_object_iff_counterexample :
    validateDataJSON "null" = [] ∧ ∀ kvs, parseJson "null" ≠ some (.obj kvs) := by
  constructor
  · decide
  · intro kvs h
    rw [show parseJson "null" = some Json.null from by decide] at h
    simp at h

/-- C4 (amended): `validateDataJSON` succeeds iff the blob parses as a JSON
object or as the JSON literal `null`; any other shape (array, scalar) or
malformed text is rejected with an error. -/
theorem validateDataJSON_ok_iff (s : String) :
    validateDataJSON s = []
      ↔ (∃ kvs, parseJson s = some (.obj kvs)) ∨ parseJson s = some .null := by
  unfold validateDataJSON unmarshalIntoMap
  cases h : parseJson s with
  | none => simp
  | some v => cases v <;> simp

theorem charListLt_iff : ∀ as bs : List Char, charListLt as bs = true ↔ List.Lex (· < ·) as bs
  | as, [] => by
    constructor
    · intro h
      rw [show charListLt as [] = false from by cases as <;> rfl] at h
      cases h
    · intro h
      exact absurd h (List.Lex.not_nil_right _ _)
  | [], b :: bs => by
    simp only [charListLt]
    constructor
    · intro _
      exact List.Lex.nil
    · intro _
      trivial
  | a :: as, b :: bs => by
    rcases lt_trichotomy a b with hab | rfl | hba
    · simp only [charListLt, if_pos hab]
      constructor
      · intro _
        exact List.Lex.rel hab
      · intro _
        trivial
    · simp only [charListLt, lt_irrefl a, if_false]
      rw [charListLt_iff as bs]
      exact (List.Lex.cons_iff).symm
    · have h1 : ¬a < b := lt_asymm hba
      simp only [charListLt, if_neg h1, if_pos hba]
      constructor
      · intro h
        cases h
      · intro h
        cases h with
        | cons h' => exact absurd rfl (ne_of_gt hba)
        | rel h' => exact absurd h' h1

/-- The strict key order (byte-lexicographic) as a relation. -/
def keyLt (a b : String) : Prop :=
  List.Lex (· < ·) a.toList b.toList

theorem strLtb_iff (a b : String) : strLtb a b = true ↔ keyLt a b :=
  charListLt_iff a.toList b.toList

theorem keyLt_trans {a b c : String} (h1 : keyLt a b) (h2 : keyLt b c) : keyLt a c := by
  have ht : IsTrans (List Char) (List.Lex (· < ·)) := inferInstance
  exact ht.trans _ _ _ h1 h2

theorem keyLt_asymm {a b : String} (h : keyLt a b) : ¬keyLt b a := by
  have ha : IsAsymm (List Char) (List.Lex (· < ·)) := inferInstance
  exact ha.asymm _ _ h

theorem keyLt_irrefl (a : String) : ¬keyLt a a :=
  fun h => keyLt_asymm h h

theorem keyLt_trichotomy (a b : String) : keyLt a b ∨ a = b ∨ keyLt b a := by
  have ht : IsTrichotomous (List Char) (List.Lex (· < ·)) := inferInstance
  rcases ht.trichotomous a.toList b.toList with h | h | h
  · exact Or.inl h
  · exact Or.inr (Or.inl (String.toList_inj.mp h))
  · exact Or.inr (Or.inr h)

theorem keyLt_ne {a b : String} (h : keyLt a b) : a ≠ b := by
  intro hab
  subst hab
  exact keyLt_irrefl a h

theorem keysSorted_iff_pairwise : ∀ kvs : List (String × Json),
    keysSorted kvs = true ↔ kvs.Pairwise (fun x y => keyLt x.1 y.1)
  | [] => by simp [keysSorted]
  | [kv] => by simp [keysSorted]
  | kv :: kv' :: rest => by
    rw [keysSorted, Bool.and_eq_true, strLtb_iff, keysSorted_iff_pairwise (kv' :: rest)]
    constructor
    · rintro ⟨h1, h2⟩
      refine List.Pairwise.cons ?_ h2
      intro y hy
      rcases List.mem_cons.mp hy with rfl | hy'
      · exact h1
      · exact keyLt_trans h1 ((List.pairwise_cons.mp h2).1 y hy')
    · intro h
      exact ⟨(List.pairwise_cons.mp h).1 kv' (by simp), (List.pairwise_cons.mp h).2⟩

theorem insertSorted_mem {k : String} {v : Json} :
    ∀ {l : List (String × Json)} {kv'}, kv' ∈ insertSorted k v l → kv' = (k, v) ∨ kv' ∈ l := by
  intro l
  induction l with
  | nil =>
    intro kv' h
    simp [insertSorted] at h
    exact Or.inl h
  | cons hd tl ih =>
    obtain ⟨k', v'⟩ := hd
    intro kv' h
    unfold insertSorted at h
    by_cases h1 : strLtb k k' = true
    · rw [if_pos h1] at h
      rcases List.mem_cons.mp h with rfl | h'
      · exact Or.inl rfl
      · exact Or.inr h'
    · rw [if_neg h1] at h
      by_cases h2 : k = k'
      · rw [if_pos h2] at h
        rcases List.mem_cons.mp h with rfl | h'
        · exact Or.inl rfl
        · exact Or.inr (List.mem_cons_of_mem _ h')
      · rw [if_neg h2] at h
        rcases List.mem_cons.mp h with rfl | h'
        · exact Or.inr (List.mem_cons_self _ _)
        · rcases ih h' with h'' | h''
          · exact Or.inl h''
          · exact Or.inr (List.mem_cons_of_mem _ h'')

theorem insertSorted_pairwise {k : String} {v : Json} :
    ∀ {l : List (String × Json)}, l.Pairwise (fun x y => keyLt x.1 y.1) →
      (insertSorted k v l).Pairwise (fun x y => keyLt x.1 y.1) := by
  intro l
  induction l with
  | nil =>
    intro _
    simp [insertSorted]
  | cons hd tl ih =>
    obtain ⟨k', v'⟩ := hd
    intro hp
    obtain ⟨hhd, htl⟩ := List.pairwise_cons.mp hp
    unfold insertSorted
    by_cases h1 : strLtb k k' = true
    · rw [if_pos h1]
      refine List.Pairwise.cons ?_ hp
      intro y hy
      rcases List.mem_cons.mp hy with rfl | hy'
      · exact (strLtb_iff _ _).mp h1
      · exact keyLt_trans ((strLtb_iff _ _).mp h1) (hhd y hy')
    · rw [if_neg h1]
      by_cases h2 : k = k'
      · rw [if_pos h2]
        subst h2
        exact List.Pairwise.cons hhd htl
      · rw [if_neg h2]
        refine List.Pairwise.cons ?_ (ih htl)
        intro y hy
        have hk'k : keyLt k' k := by
          rcases keyLt_trichotomy k k' with h | h | h
          · exact absurd ((strLtb_iff _ _).mpr h) h1
          · exact absurd h h2
          · exact h
        rcases insertSorted_mem hy with rfl | hy'
        · exact hk'k
        · exact hhd y hy'

theorem insertSorted_append {k : String} {v : Json} :
    ∀ {l : List (String × Json)}, (∀ kv ∈ l, keyLt kv.1 k) →
      insertSorted k v l = l ++ [(k, v)] := by
  intro l
  induction l with
  | nil =>
    intro _
    rfl
  | cons hd tl ih =>
    obtain ⟨k', v'⟩ := hd
    intro hlt
    have hk'k : keyLt k' k := hlt (k', v') (List.mem_cons_self _ _)
    unfold insertSorted
    rw [if_neg ?_, if_neg ?_]
    · rw [ih fun kv h => hlt kv (List.mem_cons_of_mem _ h)]
      rfl
    · exact fun h => (keyLt_ne hk'k).symm h
    · intro h
      exact keyLt_asymm hk'k ((strLtb_iff _ _).mp h)

/-- A non-empty run of decimal digits. -/
def DigitRun (l : List Char) : Prop :=
  l ≠ [] ∧ ∀ c ∈ l, c.isDigit = true

/-- Integer part of a JSON number: `0`, or a nonzero digit then digits. -/
def IntShape (l : List Char) : Prop :=
  l = ['0'] ∨ ∃ d ds, l = d :: ds ∧ d.isDigit = true ∧ d ≠ '0' ∧ ∀ c ∈ ds, c.isDigit = true

/-- Fraction part: empty or `.` then a digit run. -/
def FracShape (l : List Char) : Prop :=
  l = [] ∨ ∃ ds, l = '.' :: ds ∧ DigitRun ds

/-- Exponent part: empty or `e`/`E`, optional sign, digit run. -/
def ExpShape (l : List Char) : Prop :=
  l = [] ∨ ∃ e sgn ds, (e = 'e' ∨ e = 'E') ∧ (sgn = [] ∨ sgn = ['+'] ∨ sgn = ['-'])
    ∧ DigitRun ds ∧ l = e :: (sgn ++ ds)

/-- Shape of a complete JSON number token. -/
def TokShape (l : List Char) : Prop :=
  ∃ sgn ip fp ep, (sgn = [] ∨ sgn = ['-']) ∧ IntShape ip ∧ FracShape fp ∧ ExpShape ep
    ∧ l = sgn ++ ip ++ fp ++ ep

theorem digit_ne_char {c d : Char} (h : c.isDigit = true) (hd : d.isDigit = false) : c ≠ d := by
  intro hc
  subst hc
  rw [h] at hd
  cases hd

theorem takeWhile_digits_append {ds rest : List Char} (hds : ∀ c ∈ ds, c.isDigit = true)
    (hrest : ∀ c, rest.head? = some c → c.isDigit = false) :
    (ds ++ rest).takeWhile Char.isDigit = ds ∧ (ds ++ rest).dropWhile Char.isDigit = rest := by
  induction ds with
  | nil =>
    cases rest with
    | nil => exact ⟨rfl, rfl⟩
    | cons c t =>
      have hc := hrest c rfl
      simp [List.takeWhile_cons, List.dropWhile_cons, hc]
  | cons d ds ih =>
    have hd : d.isDigit = true := hds d (List.mem_cons_self _ _)
    have ih' := ih fun c hc => hds c (List.mem_cons_of_mem _ hc)
    simp only [List.cons_append, List.takeWhile_cons, List.dropWhile_cons, hd, if_true]
    simp [ih'.1, ih'.2]


/-- The first character of `rest`, if any, is not a digit. -/
def HeadNotDigit (rest : List Char) : Prop :=
  ∀ c, rest.head? = some c → c.isDigit = false

/-- Contexts in which the serializer places a number token: end of input or a
JSON separator. -/
def SepHead (rest : List Char) : Prop :=
  rest = [] ∨ (∃ t, rest = ',' :: t) ∨ (∃ t, rest = '}' :: t) ∨ (∃ t, rest = ']' :: t)

theorem sepHead_not_digit {rest : List Char} (h : SepHead rest) : HeadNotDigit rest := by
  rcases h with rfl | ⟨t, rfl⟩ | ⟨t, rfl⟩ | ⟨t, rfl⟩ <;> intro c hc <;> simp at hc
  · rw [← hc]
    decide
  · rw [← hc]
    decide
  · rw [← hc]
    decide

theorem parseExpDigits_forward {acc cs tok rest : List Char}
    (h : parseExpDigits acc cs = some (tok, rest)) :
    ∃ ds, DigitRun ds ∧ tok = acc ++ ds ∧ cs = ds ++ rest := by
  cases cs with
  | nil => simp [parseExpDigits] at h
  | cons d t3 =>
    by_cases hd : d.isDigit = true
    · simp only [parseExpDigits] at h
      rw [if_pos hd] at h
      simp only [Option.some.injEq, Prod.mk.injEq] at h
      obtain ⟨h1, h2⟩ := h
      refine ⟨(d :: t3).takeWhile Char.isDigit,
        ⟨by simp [List.takeWhile_cons, hd], fun x hx => List.mem_takeWhile_imp hx⟩,
        h1.symm, ?_⟩
      rw [← h2, List.takeWhile_append_dropWhile]
    · simp [parseExpDigits, hd] at h

theorem parseExpAfterE_forward {acc cs tok rest : List Char}
    (h : parseExpAfterE acc cs = some (tok, rest)) :
    ∃ sgn ds, (sgn = [] ∨ sgn = ['+'] ∨ sgn = ['-']) ∧ DigitRun ds
      ∧ tok = acc ++ sgn ++ ds ∧ cs = sgn ++ ds ++ rest := by
  cases cs with
  | nil => simp [parseExpAfterE] at h
  | cons s t2 =>
    by_cases hs : s = '+' ∨ s = '-'
    · simp only [parseExpAfterE] at h
      rw [if_pos hs] at h
      obtain ⟨ds, hds, h1, h2⟩ := parseExpDigits_forward h
      refine ⟨[s], ds, ?_, hds, by simp [h1], by simp [h2]⟩
      rcases hs with rfl | rfl
      · exact Or.inr (Or.inl rfl)
      · exact Or.inr (Or.inr rfl)
    · simp only [parseExpAfterE] at h
      rw [if_neg hs] at h
      obtain ⟨ds, hds, h1, h2⟩ := parseExpDigits_forward h
      exact ⟨[], ds, Or.inl rfl, hds, by simp [h1], by simp [h2]⟩

theorem parseNumExp_forward {acc cs tok rest : List Char}
    (h : parseNumExp acc cs = some (tok, rest)) :
    ∃ ep, ExpShape ep ∧ tok = acc ++ ep ∧ cs = ep ++ rest := by
  cases cs with
  | nil =>
    simp only [parseNumExp, Option.some.injEq, Prod.mk.injEq] at h
    obtain ⟨h1, h2⟩ := h
    exact ⟨[], Or.inl rfl, by simp [← h1], by simp [← h2]⟩
  | cons c t =>
    by_cases hce : c = 'e' ∨ c = 'E'
    · simp only [parseNumExp] at h
      rw [if_pos hce] at h
      obtain ⟨sgn, ds, hsgn, hds, h1, h2⟩ := parseExpAfterE_forward h
      refine ⟨c :: (sgn ++ ds), Or.inr ⟨c, sgn, ds, hce, hsgn, hds, rfl⟩, ?_, ?_⟩
      · rw [h1]
        simp
      · rw [h2]
        simp
    · simp only [parseNumExp] at h
      rw [if_neg hce] at h
      simp only [Option.some.injEq, Prod.mk.injEq] at h
      obtain ⟨h1, h2⟩ := h
      exact ⟨[], Or.inl rfl, by simp [← h1], by simp [← h2]⟩

theorem parseFracDigits_forward {acc cs tok rest : List Char}
    (h : parseFracDigits acc cs = some (tok, rest)) :
    ∃ ds ep, DigitRun ds ∧ ExpShape ep ∧ tok = acc ++ ds ++ ep ∧ cs = ds ++ ep ++ rest := by
  cases cs with
  | nil => simp [parseFracDigits] at h
  | cons d t3 =>
    by_cases hd : d.isDigit = true
    · simp only [parseFracDigits] at h
      rw [if_pos hd] at h
      obtain ⟨ep, hep, h1, h2⟩ := parseNumExp_forward h
      refine ⟨(d :: t3).takeWhile Char.isDigit, ep,
        ⟨by simp [List.takeWhile_cons, hd], fun x hx => List.mem_takeWhile_imp hx⟩,
        hep, by simp [h1], ?_⟩
      conv_lhs => rw [← List.takeWhile_append_dropWhile (p := Char.isDigit) (l := d :: t3)]
      rw [h2]
      simp
    · simp [parseFracDigits, hd] at h

theorem parseNumFrac_forward {acc cs tok rest : List Char}
    (h : parseNumFrac acc cs = some (tok, rest)) :
    ∃ fp ep, FracShape fp ∧ ExpShape ep ∧ tok = acc ++ fp ++ ep ∧ cs = fp ++ ep ++ rest := by
  cases cs with
  | nil =>
    simp only [parseNumFrac, parseNumExp, Option.some.injEq, Prod.mk.injEq] at h
    obtain ⟨h1, h2⟩ := h
    exact ⟨[], [], Or.inl rfl, Or.inl rfl, by simp [← h1], by simp [← h2]⟩
  | cons c t =>
    by_cases hc : c = '.'
    · simp only [parseNumFrac] at h
      rw [if_pos hc] at h
      obtain ⟨ds, ep, hds, hep, h1, h2⟩ := parseFracDigits_forward h
      subst hc
      refine ⟨'.' :: ds, ep, Or.inr ⟨ds, rfl, hds⟩, hep, by simp [h1], by simp [h2]⟩
    · simp only [parseNumFrac] at h
      rw [if_neg hc] at h
      obtain ⟨ep, hep, h1, h2⟩ := parseNumExp_forward h
      exact ⟨[], ep, Or.inl rfl, hep, by simp [h1], by simp [h2]⟩

theorem parseIntPart_forward {acc cs tok rest : List Char}
    (h : parseIntPart acc cs = some (tok, rest)) :
    ∃ ip fp ep, IntShape ip ∧ FracShape fp ∧ ExpShape ep
      ∧ tok = acc ++ ip ++ fp ++ ep ∧ cs = ip ++ fp ++ ep ++ rest := by
  cases cs with
  | nil => simp [parseIntPart] at h
  | cons c t =>
    by_cases hc0 : c = '0'
    · simp only [parseIntPart] at h
      rw [if_pos hc0] at h
      obtain ⟨fp, ep, hfp, hep, h1, h2⟩ := parseNumFrac_forward h
      subst hc0
      exact ⟨['0'], fp, ep, Or.inl rfl, hfp, hep, by simp [h1], by simp [h2]⟩
    · by_cases hcd : c.isDigit = true
      · simp only [parseIntPart] at h
        rw [if_neg hc0, if_pos hcd] at h
        obtain ⟨fp, ep, hfp, hep, h1, h2⟩ := parseNumFrac_forward h
        refine ⟨c :: t.takeWhile Char.isDigit, fp, ep,
          Or.inr ⟨c, t.takeWhile Char.isDigit, rfl, hcd, hc0,
            fun x hx => List.mem_takeWhile_imp hx⟩,
          hfp, hep, by simp [h1], ?_⟩
        conv_lhs => rw [show c :: t = c :: (t.takeWhile Char.isDigit ++ t.dropWhile Char.isDigit)
          from by rw [List.takeWhile_append_dropWhile]]
        rw [h2]
        simp
      · simp [parseIntPart, hc0, hcd] at h
  
theorem parseNumber_forward {cs tok rest : List Char}
    (h : parseNumber cs = some (tok, rest)) :
    TokShape tok ∧ cs = tok ++ rest := by
  cases cs with
  | nil => simp [parseNumber] at h
  | cons c t =>
    by_cases hcm : c = '-'
    · simp only [parseNumber] at h
      rw [if_pos hcm] at h
      obtain ⟨ip, fp, ep, hip, hfp, hep, h1, h2⟩ := parseIntPart_forward h
      subst hcm
      constructor
      · exact ⟨['-'], ip, fp, ep, Or.inr rfl, hip, hfp, hep, by simp [h1]⟩
      · rw [h2] at *
        simp [h1]
    · simp only [parseNumber] at h
      rw [if_neg hcm] at h
      obtain ⟨ip, fp, ep, hip, hfp, hep, h1, h2⟩ := parseIntPart_forward h
      constructor
      · exact ⟨[], ip, fp, ep, Or.inl rfl, hip, hfp, hep, by simp [h1]⟩
      · rw [h2]
        simp [h1]

theorem parseExpDigits_backward {acc ds rest : List Char} (hds : DigitRun ds)
    (hr : HeadNotDigit rest) :
    parseExpDigits acc (ds ++ rest) = some (acc ++ ds, rest) := by
  obtain ⟨hne, hall⟩ := hds
  obtain ⟨d, ds', rfl⟩ := List.exists_cons_of_ne_nil hne
  have hd := hall d (List.mem_cons_self _ _)
  have htw := @takeWhile_digits_append (d :: ds') rest hall hr
  rw [List.cons_append]
  simp only [parseExpDigits]
  rw [if_pos hd, ← List.cons_append, htw.1, htw.2]

theorem parseExpAfterE_backward {acc sgn ds rest : List Char}
    (hsgn : sgn = [] ∨ sgn = ['+'] ∨ sgn = ['-']) (hds : DigitRun ds) (hr : HeadNotDigit rest) :
    parseExpAfterE acc (sgn ++ ds ++ rest) = some (acc ++ sgn ++ ds, rest) := by
  rcases hsgn with rfl | rfl | rfl
  · obtain ⟨hne, hall⟩ := hds
    obtain ⟨d, ds', rfl⟩ := List.exists_cons_of_ne_nil hne
    have hd := hall d (List.mem_cons_self _ _)
    have hplus : ¬(d = '+' ∨ d = '-') := by
      rintro (rfl | rfl)
      · exact absurd hd (by decide)
      · exact absurd hd (by decide)
    rw [List.nil_append, List.cons_append]
    simp only [parseExpAfterE]
    rw [if_neg hplus, ← List.cons_append]
    rw [parseExpDigits_backward ⟨hne, hall⟩ hr]
    simp
  · have hred : parseExpAfterE acc ('+' :: (ds ++ rest))
        = parseExpDigits (acc ++ ['+']) (ds ++ rest) := by
      simp [parseExpAfterE]
    rw [show (['+'] ++ ds ++ rest : List Char) = '+' :: (ds ++ rest) from by simp, hred,
      parseExpDigits_backward hds hr]
  · have hred : parseExpAfterE acc ('-' :: (ds ++ rest))
        = parseExpDigits (acc ++ ['-']) (ds ++ rest) := by
      simp [parseExpAfterE]
    rw [show (['-'] ++ ds ++ rest : List Char) = '-' :: (ds ++ rest) from by simp, hred,
      parseExpDigits_backward hds hr]

theorem parseNumExp_backward {acc ep rest : List Char} (hep : ExpShape ep) (hr : SepHead rest) :
    parseNumExp acc (ep ++ rest) = some (acc ++ ep, rest) := by
  rcases hep with rfl | ⟨e, sgn, ds, he, hsgn, hds, rfl⟩
  · rcases hr with rfl | ⟨t, rfl⟩ | ⟨t, rfl⟩ | ⟨t, rfl⟩ <;> simp [parseNumExp]
  · have hr' : HeadNotDigit rest := sepHead_not_digit hr
    rw [List.cons_append]
    simp only [parseNumExp]
    rw [if_pos he, parseExpAfterE_backward hsgn hds hr']
    simp

theorem headNotDigit_of_expShape_sep {ep rest : List Char} (hep : ExpShape ep)
    (hr : SepHead rest) : HeadNotDigit (ep ++ rest) := by
  rcases hep with rfl | ⟨e, sgn, ds, he, hsgn, hds, rfl⟩
  · exact sepHead_not_digit hr
  · intro c hc
    rw [List.cons_append] at hc
    simp only [List.head?_cons, Option.some.injEq] at hc
    subst hc
    rcases he with rfl | rfl
    · decide
    · decide

theorem parseFracDigits_backward {acc ds ep rest : List Char} (hds : DigitRun ds)
    (hep : ExpShape ep) (hr : SepHead rest) :
    parseFracDigits acc (ds ++ ep ++ rest) = some (acc ++ ds ++ ep, rest) := by
  obtain ⟨hne, hall⟩ := hds
  obtain ⟨d, ds', rfl⟩ := List.exists_cons_of_ne_nil hne
  have hd := hall d (List.mem_cons_self _ _)
  have hmid : HeadNotDigit (ep ++ rest) := headNotDigit_of_expShape_sep hep hr
  have htw := @takeWhile_digits_append (d :: ds') (ep ++ rest) hall hmid
  rw [List.append_assoc, List.cons_append]
  simp only [parseFracDigits]
  rw [if_pos hd, ← List.cons_append, htw.1, htw.2, parseNumExp_backward hep hr]

theorem headNotDigit_of_fracShape {fp ep rest : List Char} (hfp : FracShape fp)
    (hep : ExpShape ep) (hr : SepHead rest) : HeadNotDigit (fp ++ ep ++ rest) := by
  rcases hfp with rfl | ⟨ds, rfl, hds⟩
  · rw [List.nil_append]
    exact headNotDigit_of_expShape_sep hep hr
  · intro c hc
    rw [List.append_assoc, List.cons_append] at hc
    simp only [List.head?_cons, Option.some.injEq] at hc
    subst hc
    decide

theorem parseNumFrac_backward {acc fp ep rest : List Char} (hfp : FracShape fp)
    (hep : ExpShape ep) (hr : SepHead rest) :
    parseNumFrac acc (fp ++ ep ++ rest) = some (acc ++ fp ++ ep, rest) := by
  rcases hfp with rfl | ⟨ds, rfl, hds⟩
  · simp only [List.nil_append, List.append_nil]
    rcases hep with rfl | ⟨e, sgn, ds, he, hsgn, hds, rfl⟩
    · rcases hr with rfl | ⟨t, rfl⟩ | ⟨t, rfl⟩ | ⟨t, rfl⟩ <;>
        simp [parseNumFrac, parseNumExp]
    · have hee : ¬(e = '.') := by
        rcases he with rfl | rfl
        · decide
        · decide
      rw [List.cons_append]
      simp only [parseNumFrac]
      rw [if_neg hee, ← List.cons_append]
      exact parseNumExp_backward (Or.inr ⟨e, sgn, ds, he, hsgn, hds, rfl⟩) hr
  · have hred : ∀ u, parseNumFrac acc ('.' :: u) = parseFracDigits (acc ++ ['.']) u := by
      intro u
      simp [parseNumFrac]
    rw [show ('.' :: ds) ++ ep ++ rest = '.' :: (ds ++ ep ++ rest) from by simp, hred,
      parseFracDigits_backward hds hep hr]
    simp

theorem parseIntPart_backward {acc ip fp ep rest : List Char} (hip : IntShape ip)
    (hfp : FracShape fp) (hep : ExpShape ep) (hr : SepHead rest) :
    parseIntPart acc (ip ++ fp ++ ep ++ rest) = some (acc ++ ip ++ fp ++ ep, rest) := by
  have hmid : HeadNotDigit (fp ++ ep ++ rest) := headNotDigit_of_fracShape hfp hep hr
  rcases hip with rfl | ⟨d, ds, rfl, hd, h0, hds⟩
  · have hred : ∀ u, parseIntPart acc ('0' :: u) = parseNumFrac (acc ++ ['0']) u := by
      intro u
      simp [parseIntPart]
    rw [show (['0'] : List Char) ++ fp ++ ep ++ rest = '0' :: ((fp ++ ep) ++ rest) from by simp,
      hred]
    rw [show ((fp ++ ep) ++ rest : List Char) = fp ++ ep ++ rest from by simp,
      parseNumFrac_backward hfp hep hr]
  · have htw := @takeWhile_digits_append ds (fp ++ ep ++ rest) hds hmid
    rw [show (d :: ds) ++ fp ++ ep ++ rest = d :: (ds ++ (fp ++ ep ++ rest)) from by simp]
    simp only [parseIntPart]
    rw [if_neg h0, if_pos hd, htw.1, htw.2, parseNumFrac_backward hfp hep hr]

theorem parseNumber_backward {tok rest : List Char} (h : TokShape tok) (hr : SepHead rest) :
    parseNumber (tok ++ rest) = some (tok, rest) := by
  obtain ⟨sgn, ip, fp, ep, hsgn, hip, hfp, hep, rfl⟩ := h
  rcases hsgn with rfl | rfl
  · have hhead : ∃ d t, ip ++ fp ++ ep ++ rest = d :: t ∧ d.isDigit = true := by
      rcases hip with rfl | ⟨d, ds, rfl, hd, h0, hds⟩
      · exact ⟨'0', fp ++ ep ++ rest, by simp, by decide⟩
      · exact ⟨d, ds ++ (fp ++ ep ++ rest), by simp, hd⟩
    obtain ⟨d, t, heq, hd⟩ := hhead
    rw [List.nil_append, show (ip ++ fp ++ ep) ++ rest = ip ++ fp ++ ep ++ rest from by simp,
      heq]
    simp only [parseNumber]
    rw [if_neg (digit_ne_char hd (by decide)), ← heq]
    have := @parseIntPart_backward [] _ _ _ _ hip hfp hep hr
    simpa using this
  · have hred : ∀ u, parseNumber ('-' :: u) = parseIntPart ['-'] u := by
      intro u
      simp [parseNumber]
    rw [show (['-'] ++ ip ++ fp ++ ep) ++ rest = '-' :: (ip ++ fp ++ ep ++ rest) from by simp,
      hred, parseIntPart_backward hip hfp hep hr]

theorem numValid_iff (t : String) :
    numValid t = true ↔ parseNumber t.toList = some (t.toList, []) := by
  simp [numValid]

theorem numValid_of_parse {cs tok rest : List Char}
    (h : parseNumber cs = some (tok, rest)) : numValid tok.asString = true := by
  obtain ⟨hshape, _⟩ := parseNumber_forward h
  rw [numValid_iff, List.toList_asString]
  have := parseNumber_backward hshape (Or.inl rfl : SepHead [])
  simpa using this

theorem numValid_extend {t : String} (h : numValid t = true) {rest : List Char}
    (hr : SepHead rest) : parseNumber (t.toList ++ rest) = some (t.toList, rest) := by
  rw [numValid_iff] at h
  obtain ⟨hshape, _⟩ := parseNumber_forward h
  exact parseNumber_backward hshape hr

theorem tokShape_head {t : List Char} (h : TokShape t) :
    ∃ c cs, t = c :: cs ∧ (c = '-' ∨ c.isDigit = true) := by
  obtain ⟨sgn, ip, fp, ep, hsgn, hip, _, _, rfl⟩ := h
  rcases hsgn with rfl | rfl
  · rcases hip with rfl | ⟨d, ds, rfl, hd, _, _⟩
    · exact ⟨'0', fp ++ ep, by simp, Or.inr (by decide)⟩
    · exact ⟨d, ds ++ fp ++ ep, by simp, Or.inr hd⟩
  · exact ⟨'-', ip ++ fp ++ ep, by simp, Or.inl rfl⟩

theorem numValid_head {t : String} (h : numValid t = true) :
    ∃ c cs, t.toList = c :: cs ∧ (c = '-' ∨ c.isDigit = true) := by
  rw [numValid_iff] at h
  exact tokShape_head (parseNumber_forward h).1

theorem hexVal_hexDigit {n : Nat} (h : n < 16) : hexVal (hexDigit n) = some n := by
  interval_cases n <;> decide

theorem hex4_two_zero (a b : Nat) (ha : a < 16) (hb : b < 16) :
    hex4 '0' '0' (hexDigit a) (hexDigit b) = some (a * 16 + b) := by
  have e1 : hexVal '0' = some 0 := by decide
  have e2 := hexVal_hexDigit ha
  have e3 := hexVal_hexDigit hb
  simp [hex4, e1, e2, e3]


theorem parseStrF_escapeBody (l : List Char) :
    ∀ fuel rest, (escapeBody l).length < fuel →
      parseStrF fuel .body (escapeBody l ++ '"' :: rest) = some (l, rest) := by
  induction l with
  | nil =>
    intro fuel rest hfuel
    obtain ⟨f, rfl⟩ : ∃ f, fuel = f + 1 := ⟨fuel - 1, by omega⟩
    simp [escapeBody, parseStrF]
  | cons c l ih =>
    intro fuel rest hfuel
    rw [escapeBody] at hfuel
    rw [escapeBody, List.append_assoc]
    by_cases h1 : c = '"'
    · subst h1
      rw [show escapeChar '"' = ['\\', '"'] from rfl] at hfuel
      simp only [List.length_append, List.length_cons, List.length_nil] at hfuel
      obtain ⟨f, rfl⟩ : ∃ f, fuel = f + 2 := ⟨fuel - 2, by omega⟩
      rw [show escapeChar '"' = ['\\', '"'] from rfl]
      have hred : parseStrF (f + 2) .body ('\\' :: '"' :: (escapeBody l ++ '"' :: rest))
          = (parseStrF f .body (escapeBody l ++ '"' :: rest)).map
              fun r => ('"' :: r.1, r.2) := by
        simp [parseStrF]
      rw [show (['\\', '"'] : List Char) ++ (escapeBody l ++ '"' :: rest)
          = '\\' :: '"' :: (escapeBody l ++ '"' :: rest) from rfl, hred,
        ih f rest (by omega)]
      rfl
    · by_cases h2 : c = '\\'
      · subst h2
        rw [show escapeChar '\\' = ['\\', '\\'] from rfl] at hfuel
        simp only [List.length_append, List.length_cons, List.length_nil] at hfuel
        obtain ⟨f, rfl⟩ : ∃ f, fuel = f + 2 := ⟨fuel - 2, by omega⟩
        rw [show escapeChar '\\' = ['\\', '\\'] from rfl]
        have hred : parseStrF (f + 2) .body ('\\' :: '\\' :: (escapeBody l ++ '"' :: rest))
            = (parseStrF f .body (escapeBody l ++ '"' :: rest)).map
                fun r => ('\\' :: r.1, r.2) := by
          simp [parseStrF]
        rw [show (['\\', '\\'] : List Char) ++ (escapeBody l ++ '"' :: rest)
            = '\\' :: '\\' :: (escapeBody l ++ '"' :: rest) from rfl, hred,
          ih f rest (by omega)]
        rfl
      · by_cases h3 : c = '\n'
        · subst h3
          rw [show escapeChar '\n' = ['\\', 'n'] from rfl] at hfuel
          simp only [List.length_append, List.length_cons, List.length_nil] at hfuel
          obtain ⟨f, rfl⟩ : ∃ f, fuel = f + 2 := ⟨fuel - 2, by omega⟩
          rw [show escapeChar '\n' = ['\\', 'n'] from rfl]
          have hred : parseStrF (f + 2) .body ('\\' :: 'n' :: (escapeBody l ++ '"' :: rest))
              = (parseStrF f .body (escapeBody l ++ '"' :: rest)).map
                  fun r => ('\n' :: r.1, r.2) := by
            simp [parseStrF]
          rw [show (['\\', 'n'] : List Char) ++ (escapeBody l ++ '"' :: rest)
              = '\\' :: 'n' :: (escapeBody l ++ '"' :: rest) from rfl, hred,
            ih f rest (by omega)]
          rfl
        · by_cases h4 : c = '\r'
          · subst h4
            rw [show escapeChar '\r' = ['\\', 'r'] from rfl] at hfuel
            simp only [List.length_append, List.length_cons, List.length_nil] at hfuel
            obtain ⟨f, rfl⟩ : ∃ f, fuel = f + 2 := ⟨fuel - 2, by omega⟩
            rw [show escapeChar '\r' = ['\\', 'r'] from rfl]
            have hred : parseStrF (f + 2) .body ('\\' :: 'r' :: (escapeBody l ++ '"' :: rest))
                = (parseStrF f .body (escapeBody l ++ '"' :: rest)).map
                    fun r => ('\r' :: r.1, r.2) := by
              simp [parseStrF]
            rw [show (['\\', 'r'] : List Char) ++ (escapeBody l ++ '"' :: rest)
                = '\\' :: 'r' :: (escapeBody l ++ '"' :: rest) from rfl, hred,
              ih f rest (by omega)]
            rfl
          · by_cases h5 : c = '\t'
            · subst h5
              rw [show escapeChar '\t' = ['\\', 't'] from rfl] at hfuel
              simp only [List.length_append, List.length_cons, List.length_nil] at hfuel
              obtain ⟨f, rfl⟩ : ∃ f, fuel = f + 2 := ⟨fuel - 2, by omega⟩
              rw [show escapeChar '\t' = ['\\', 't'] from rfl]
              have hred : parseStrF (f + 2) .body ('\\' :: 't' :: (escapeBody l ++ '"' :: rest))
                  = (parseStrF f .body (escapeBody l ++ '"' :: rest)).map
                      fun r => ('\t' :: r.1, r.2) := by
                simp [parseStrF]
              rw [show (['\\', 't'] : List Char) ++ (escapeBody l ++ '"' :: rest)
                  = '\\' :: 't' :: (escapeBody l ++ '"' :: rest) from rfl, hred,
                ih f rest (by omega)]
              rfl
            · by_cases h6 : c.toNat < 0x20
              · have hesc : escapeChar c
                    = ['\\', 'u', '0', '0', hexDigit (c.toNat / 16), hexDigit (c.toNat % 16)] := by
                  rw [escapeChar, if_neg h1, if_neg h2, if_neg h3, if_neg h4, if_neg h5,
                    if_pos h6]
                rw [hesc] at hfuel
                simp only [List.length_append, List.length_cons, List.length_nil] at hfuel
                obtain ⟨f, rfl⟩ : ∃ f, fuel = f + 3 := ⟨fuel - 3, by omega⟩
                rw [hesc]
                have h4x := hex4_two_zero (c.toNat / 16) (c.toNat % 16) (by omega)
                  (Nat.mod_lt _ (by norm_num))
                have hval : c.toNat / 16 * 16 + c.toNat % 16 = c.toNat := by omega
                rw [hval] at h4x
                have hs1 : ¬(0xD800 ≤ c.toNat ∧ c.toNat ≤ 0xDBFF) := by omega
                have hs2 : ¬(0xDC00 ≤ c.toNat ∧ c.toNat ≤ 0xDFFF) := by omega
                have hred : parseStrF (f + 3) .body ('\\' :: 'u' :: '0' :: '0'
                      :: hexDigit (c.toNat / 16) :: hexDigit (c.toNat % 16)
                      :: (escapeBody l ++ '"' :: rest))
                    = (parseStrF f .body (escapeBody l ++ '"' :: rest)).map
                        fun r => (Char.ofNat c.toNat :: r.1, r.2) := by
                  simp [parseStrF, h4x, hs1, hs2]
                rw [show (['\\', 'u', '0', '0', hexDigit (c.toNat / 16),
                      hexDigit (c.toNat % 16)] : List Char) ++ (escapeBody l ++ '"' :: rest)
                    = '\\' :: 'u' :: '0' :: '0' :: hexDigit (c.toNat / 16)
                        :: hexDigit (c.toNat % 16) :: (escapeBody l ++ '"' :: rest) from rfl,
                  hred, ih f rest (by omega), Char.ofNat_toNat]
                rfl
              · by_cases h7 : c = '<'
                · subst h7
                  rw [show escapeChar '<' = ['\\', 'u', '0', '0', '3', 'c'] from rfl] at hfuel
                  simp only [List.length_append, List.length_cons, List.length_nil] at hfuel
                  obtain ⟨f, rfl⟩ : ∃ f, fuel = f + 3 := ⟨fuel - 3, by omega⟩
                  rw [show escapeChar '<' = ['\\', 'u', '0', '0', '3', 'c'] from rfl]
                  have hred : parseStrF (f + 3) .body ('\\' :: 'u' :: '0' :: '0' :: '3' :: 'c'
                        :: (escapeBody l ++ '"' :: rest))
                      = (parseStrF f .body (escapeBody l ++ '"' :: rest)).map
                          fun r => ('<' :: r.1, r.2) := by
                    simp [parseStrF, show hex4 '0' '0' '3' 'c' = some 60 from by decide,
                      show Char.ofNat 60 = '<' from rfl]
                  rw [show (['\\', 'u', '0', '0', '3', 'c'] : List Char)
                      ++ (escapeBody l ++ '"' :: rest)
                      = '\\' :: 'u' :: '0' :: '0' :: '3' :: 'c' :: (escapeBody l ++ '"' :: rest)
                      from rfl, hred, ih f rest (by omega)]
                  rfl
                · by_cases h8 : c = '>'
                  · subst h8
                    rw [show escapeChar '>' = ['\\', 'u', '0', '0', '3', 'e'] from rfl] at hfuel
                    simp only [List.length_append, List.length_cons, List.length_nil] at hfuel
                    obtain ⟨f, rfl⟩ : ∃ f, fuel = f + 3 := ⟨fuel - 3, by omega⟩
                    rw [show escapeChar '>' = ['\\', 'u', '0', '0', '3', 'e'] from rfl]
                    have hred : parseStrF (f + 3) .body ('\\' :: 'u' :: '0' :: '0' :: '3' :: 'e'
                          :: (escapeBody l ++ '"' :: rest))
                        = (parseStrF f .body (escapeBody l ++ '"' :: rest)).map
                            fun r => ('>' :: r.1, r.2) := by
                      simp [parseStrF, show hex4 '0' '0' '3' 'e' = some 62 from by decide,
                        show Char.ofNat 62 = '>' from rfl]
                    rw [show (['\\', 'u', '0', '0', '3', 'e'] : List Char)
                        ++ (escapeBody l ++ '"' :: rest)
                        = '\\' :: 'u' :: '0' :: '0' :: '3' :: 'e'
                            :: (escapeBody l ++ '"' :: rest) from rfl, hred,
                      ih f rest (by omega)]
                    rfl
                  · by_cases h9 : c = '&'
                    · subst h9
                      rw [show escapeChar '&' = ['\\', 'u', '0', '0', '2', '6'] from rfl]
                        at hfuel
                      simp only [List.length_append, List.length_cons, List.length_nil] at hfuel
                      obtain ⟨f, rfl⟩ : ∃ f, fuel = f + 3 := ⟨fuel - 3, by omega⟩
                      rw [show escapeChar '&' = ['\\', 'u', '0', '0', '2', '6'] from rfl]
                      have hred : parseStrF (f + 3) .body ('\\' :: 'u' :: '0' :: '0' :: '2'
                            :: '6' :: (escapeBody l ++ '"' :: rest))
                          = (parseStrF f .body (escapeBody l ++ '"' :: rest)).map
                              fun r => ('&' :: r.1, r.2) := by
                        simp [parseStrF, show hex4 '0' '0' '2' '6' = some 38 from by decide,
                          show Char.ofNat 38 = '&' from rfl]
                      rw [show (['\\', 'u', '0', '0', '2', '6'] : List Char)
                          ++ (escapeBody l ++ '"' :: rest)
                          = '\\' :: 'u' :: '0' :: '0' :: '2' :: '6'
                              :: (escapeBody l ++ '"' :: rest) from rfl, hred,
                        ih f rest (by omega)]
                      rfl
                    · by_cases h10 : c.toNat = 0x2028
                      · have hc : c = ' ' := by
                          have hh := Char.ofNat_toNat c
                          rw [h10] at hh
                          rw [← hh]
                        subst hc
                        rw [show escapeChar ' ' = ['\\', 'u', '2', '0', '2', '8']
                            from rfl] at hfuel
                        simp only [List.length_append, List.length_cons, List.length_nil]
                          at hfuel
                        obtain ⟨f, rfl⟩ : ∃ f, fuel = f + 3 := ⟨fuel - 3, by omega⟩
                        rw [show escapeChar ' ' = ['\\', 'u', '2', '0', '2', '8']
                            from rfl]
                        have hred : parseStrF (f + 3) .body ('\\' :: 'u' :: '2' :: '0' :: '2'
                              :: '8' :: (escapeBody l ++ '"' :: rest))
                            = (parseStrF f .body (escapeBody l ++ '"' :: rest)).map
                                fun r => (' ' :: r.1, r.2) := by
                          simp [parseStrF,
                            show hex4 '2' '0' '2' '8' = some 0x2028 from by decide,
                            show Char.ofNat 0x2028 = ' ' from rfl]
                        rw [show (['\\', 'u', '2', '0', '2', '8'] : List Char)
                            ++ (escapeBody l ++ '"' :: rest)
                            = '\\' :: 'u' :: '2' :: '0' :: '2' :: '8'
                                :: (escapeBody l ++ '"' :: rest) from rfl, hred,
                          ih f rest (by omega)]
                        rfl
                      · by_cases h11 : c.toNat = 0x2029
                        · have hc : c = ' ' := by
                            have hh := Char.ofNat_toNat c
                            rw [h11] at hh
                            rw [← hh]
                          subst hc
                          rw [show escapeChar ' ' = ['\\', 'u', '2', '0', '2', '9']
                              from rfl] at hfuel
                          simp only [List.length_append, List.length_cons, List.length_nil]
                            at hfuel
                          obtain ⟨f, rfl⟩ : ∃ f, fuel = f + 3 := ⟨fuel - 3, by omega⟩
                          rw [show escapeChar ' ' = ['\\', 'u', '2', '0', '2', '9']
                              from rfl]
                          have hred : parseStrF (f + 3) .body ('\\' :: 'u' :: '2' :: '0' :: '2'
                                :: '9' :: (escapeBody l ++ '"' :: rest))
                              = (parseStrF f .body (escapeBody l ++ '"' :: rest)).map
                                  fun r => (' ' :: r.1, r.2) := by
                            simp [parseStrF,
                              show hex4 '2' '0' '2' '9' = some 0x2029 from by decide,
                              show Char.ofNat 0x2029 = ' ' from rfl]
                          rw [show (['\\', 'u', '2', '0', '2', '9'] : List Char)
                              ++ (escapeBody l ++ '"' :: rest)
                              = '\\' :: 'u' :: '2' :: '0' :: '2' :: '9'
                                  :: (escapeBody l ++ '"' :: rest) from rfl, hred,
                            ih f rest (by omega)]
                          rfl
                        · have hesc : escapeChar c = [c] := by
                            rw [escapeChar, if_neg h1, if_neg h2, if_neg h3, if_neg h4,
                              if_neg h5, if_neg h6, if_neg h7, if_neg h8, if_neg h9,
                              if_neg h10, if_neg h11]
                          rw [hesc] at hfuel
                          simp only [List.length_append, List.length_cons, List.length_nil]
                            at hfuel
                          obtain ⟨f, rfl⟩ : ∃ f, fuel = f + 1 := ⟨fuel - 1, by omega⟩
                          rw [hesc]
                          have hred : parseStrF (f + 1) .body
                                (c :: (escapeBody l ++ '"' :: rest))
                              = (parseStrF f .body (escapeBody l ++ '"' :: rest)).map
                                  fun r => (c :: r.1, r.2) := by
                            simp only [parseStrF]
                            rw [if_neg h1, if_neg h2, if_neg h6]
                          rw [show ([c] : List Char) ++ (escapeBody l ++ '"' :: rest)
                              = c :: (escapeBody l ++ '"' :: rest) from rfl, hred,
                            ih f rest (by omega)]
                          rfl

/-- Round trip for string bodies through the default-fuel entry point. -/
theorem parseStringBody_escapeBody (l : List Char) :
    ∀ rest, parseStringBody (escapeBody l ++ '"' :: rest) = some (l, rest) := by
  intro rest
  rw [parseStringBody]
  apply parseStrF_escapeBody
  rw [List.length_append, List.length_cons]
  omega

theorem skipWs_not_ws {c : Char} (h : isWsChar c = false) (u : List Char) :
    skipWs (c :: u) = c :: u := by
  simp [skipWs, h]

theorem sizeJ_pos (v : Json) : 1 ≤ sizeJ v := by
  cases v <;> simp [sizeJ]

theorem isWsChar_digit {c : Char} (h : c.isDigit = true) : isWsChar c = false := by
  have h1 := digit_ne_char h (show (' ' : Char).isDigit = false from by decide)
  have h2 := digit_ne_char h (show ('\t' : Char).isDigit = false from by decide)
  have h3 := digit_ne_char h (show ('\n' : Char).isDigit = false from by decide)
  have h4 := digit_ne_char h (show ('\r' : Char).isDigit = false from by decide)
  simp [isWsChar, h1, h2, h3, h4]

theorem num_head_conds {c : Char} (hc : c = '-' ∨ c.isDigit = true) :
    isWsChar c = false ∧ c ≠ '{' ∧ c ≠ '[' ∧ c ≠ '"' ∧ c ≠ 't' ∧ c ≠ 'f' ∧ c ≠ 'n'
      ∧ c ≠ ']' ∧ c ≠ '}' := by
  rcases hc with rfl | hd
  · exact ⟨by decide, by decide, by decide, by decide, by decide, by decide, by decide,
      by decide, by decide⟩
  · exact ⟨isWsChar_digit hd, digit_ne_char hd (by decide), digit_ne_char hd (by decide),
      digit_ne_char hd (by decide), digit_ne_char hd (by decide), digit_ne_char hd (by decide),
      digit_ne_char hd (by decide), digit_ne_char hd (by decide), digit_ne_char hd (by decide)⟩

theorem marshal_head {v : Json} (h : numsOk v = true) :
    ∃ c cs, marshalJson v = c :: cs ∧ isWsChar c = false ∧ c ≠ ']' ∧ c ≠ '}' := by
  cases v with
  | null => exact ⟨'n', _, rfl, by decide, by decide, by decide⟩
  | bool b =>
    cases b
    · exact ⟨'f', _, rfl, by decide, by decide, by decide⟩
    · exact ⟨'t', _, rfl, by decide, by decide, by decide⟩
  | num tok =>
    have hval : numValid tok = true := by simpa [numsOk] using h
    obtain ⟨c, cs, htok, hc⟩ := numValid_head hval
    obtain ⟨hws, _, _, _, _, _, _, hne1, hne2⟩ := num_head_conds hc
    exact ⟨c, cs, by rw [show marshalJson (.num tok) = tok.toList from rfl, htok], hws,
      hne1, hne2⟩
  | str s =>
    exact ⟨'"', escapeBody s.toList ++ ['"'], rfl, by decide, by decide, by decide⟩
  | arr xs => exact ⟨'[', _, rfl, by decide, by decide, by decide⟩
  | obj kvs => exact ⟨'{', _, rfl, by decide, by decide, by decide⟩

theorem marshalMembers_head (kv : String × Json) (kvs : List (String × Json)) :
    ∃ u, marshalMembers (kv :: kvs) = '"' :: u := by
  cases kvs with
  | nil =>
    exact ⟨escapeBody kv.1.toList ++ ['"'] ++ ':' :: marshalJson kv.2,
      by simp [marshalMembers, quoteString]⟩
  | cons y ys =>
    exact ⟨escapeBody kv.1.toList ++ ['"']
      ++ ':' :: (marshalJson kv.2 ++ ',' :: marshalMembers (y :: ys)),
      by simp [marshalMembers, quoteString]⟩

theorem pv_step_num {c : Char} (hws : isWsChar c = false) (hb1 : c ≠ '{') (hb2 : c ≠ '[')
    (hb3 : c ≠ '"') (hb4 : c ≠ 't') (hb5 : c ≠ 'f') (hb6 : c ≠ 'n')
    (fuel : Nat) (u : List Char) :
    parseValue (fuel + 1) (c :: u)
      = match parseNumber (c :: u) with
        | some (t, r) => some (.num t.asString, r)
        | none => none := by
  simp [parseValue, skipWs_not_ws hws, hb1, hb2, hb3, hb4, hb5, hb6]

theorem pv_step_str (fuel : Nat) (u : List Char) :
    parseValue (fuel + 1) ('"' :: u)
      = match parseStringBody u with
        | some (content, r) => some (.str content.asString, r)
        | none => none := by
  simp [parseValue, skipWs, isWsChar]

theorem pv_step_arr {c0 : Char} (hws : isWsChar c0 = false) (hne : c0 ≠ ']')
    (fuel : Nat) (u : List Char) :
    parseValue (fuel + 1) ('[' :: c0 :: u)
      = match parseElems fuel (c0 :: u) with
        | some (vs, r) => some (.arr vs, r)
        | none => none := by
  have h1 : skipWs ('[' :: c0 :: u) = '[' :: c0 :: u := skipWs_not_ws (by decide) _
  have h2 : skipWs (c0 :: u) = c0 :: u := skipWs_not_ws hws _
  simp [parseValue, h1, h2]
  split
  · next cs2 heq =>
    injection heq with hh _
    exact absurd hh hne
  · rfl

theorem pv_step_obj {c0 : Char} (hws : isWsChar c0 = false) (hne : c0 ≠ '}')
    (fuel : Nat) (u : List Char) :
    parseValue (fuel + 1) ('{' :: c0 :: u)
      = match parseMembers fuel (c0 :: u) with
        | some (kvs, r) => some (.obj kvs, r)
        | none => none := by
  have h1 : skipWs ('{' :: c0 :: u) = '{' :: c0 :: u := skipWs_not_ws (by decide) _
  have h2 : skipWs (c0 :: u) = c0 :: u := skipWs_not_ws hws _
  simp [parseValue, h1, h2]
  split
  · next cs2 heq =>
    injection heq with hh _
    exact absurd hh hne
  · rfl

theorem pm_step (fuel : Nat) (u : List Char) :
    parseMembers (fuel + 1) ('"' :: u)
      = match parseStringBody u with
        | some (key, cs2) =>
          match skipWs cs2 with
          | ':' :: cs3 =>
            match parseValue fuel cs3 with
            | some (v, cs4) =>
              match skipWs cs4 with
              | ',' :: cs5 =>
                match parseMembers fuel (skipWs cs5) with
                | some (kvs, rest) => some ((key.asString, v) :: kvs, rest)
                | none => none
              | '}' :: cs5 => some ([(key.asString, v)], cs5)
              | _ => none
            | none => none
          | _ => none
        | none => none := by
  simp [parseMembers]

theorem pm_run (fuel : Nat) (u cs3 : List Char) (key : List Char) (v : Json) (cs4 : List Char)
    (hkey : parseStringBody u = some (key, ':' :: cs3))
    (hv : parseValue fuel cs3 = some (v, cs4)) :
    parseMembers (fuel + 1) ('"' :: u)
      = match skipWs cs4 with
        | ',' :: cs5 =>
          match parseMembers fuel (skipWs cs5) with
          | some (kvs, rest) => some ((key.asString, v) :: kvs, rest)
          | none => none
        | '}' :: cs5 => some ([(key.asString, v)], cs5)
        | _ => none := by
  rw [pm_step fuel u, hkey]
  show (match parseValue fuel cs3 with
        | some (v, cs4) =>
          match skipWs cs4 with
          | ',' :: cs5 =>
            match parseMembers fuel (skipWs cs5) with
            | some (kvs, rest) => some ((key.asString, v) :: kvs, rest)
            | none => none
          | '}' :: cs5 => some ([(key.asString, v)], cs5)
          | _ => none
        | none => none) = _
  rw [hv]

theorem pe_run (fuel : Nat) (cs : List Char) (v : Json) (cs1 : List Char)
    (hv : parseValue fuel cs = some (v, cs1)) :
    parseElems (fuel + 1) cs
      = match skipWs cs1 with
        | ',' :: cs2 =>
          match parseElems fuel cs2 with
          | some (vs, rest) => some (v :: vs, rest)
          | none => none
        | ']' :: cs2 => some ([v], cs2)
        | _ => none := by
  simp only [parseElems]
  rw [hv]

/-- Joint round trip of the three fuel-indexed parsing functions against the
three marshalling functions: with enough fuel, parsing a marshalled value
(member list, element list) in a separator context returns it exactly. -/
theorem parse_marshal_aux : ∀ fuel : Nat,
    (∀ v rest, sizeJ v ≤ fuel → numsOk v = true → SepHead rest →
      parseValue fuel (marshalJson v ++ rest) = some (v, rest))
    ∧ (∀ kvs rest, kvs ≠ [] → sizeJK kvs ≤ fuel → numsOkKvs kvs = true →
      parseMembers fuel (marshalMembers kvs ++ '}' :: rest) = some (kvs, rest))
    ∧ (∀ vs rest, vs ≠ [] → sizeJL vs ≤ fuel → numsOkList vs = true →
      parseElems fuel (marshalElems vs ++ ']' :: rest) = some (vs, rest)) := by
  intro fuel
  induction fuel with
  | zero =>
    refine ⟨?_, ?_, ?_⟩
    · intro v rest hsz _ _
      have := sizeJ_pos v
      omega
    · intro kvs rest hne hsz _
      cases kvs with
      | nil => exact absurd rfl hne
      | cons kv kvs => simp [sizeJK] at hsz
    · intro vs rest hne hsz _
      cases vs with
      | nil => exact absurd rfl hne
      | cons v vs => simp [sizeJL] at hsz
  | succ fuel ih =>
    obtain ⟨ih1, ih2, ih3⟩ := ih
    refine ⟨?_, ?_, ?_⟩
    · intro v rest hsz hnum hsep
      cases v with
      | null => simp [marshalJson, parseValue, skipWs, isWsChar]
      | bool b => cases b <;> simp [marshalJson, parseValue, skipWs, isWsChar]
      | num tok =>
        have hval : numValid tok = true := by simpa [numsOk] using hnum
        obtain ⟨c, cs, htok, hc⟩ := numValid_head hval
        obtain ⟨hws, hb1, hb2, hb3, hb4, hb5, hb6, -, -⟩ := num_head_conds hc
        have hparse := numValid_extend hval hsep
        rw [htok] at hparse
        have hstr : (c :: cs).asString = tok := by rw [← htok, String.asString_toList]
        rw [show marshalJson (.num tok) ++ rest = c :: (cs ++ rest) from by
          rw [show marshalJson (.num tok) = tok.toList from rfl, htok]
          rfl]
        rw [pv_step_num hws hb1 hb2 hb3 hb4 hb5 hb6 fuel (cs ++ rest)]
        rw [show c :: (cs ++ rest) = (c :: cs) ++ rest from rfl, hparse]
        show some (Json.num (c :: cs).asString, rest) = some (Json.num tok, rest)
        rw [hstr]
      | str s =>
        have hq : marshalJson (.str s) ++ rest
            = '"' :: (escapeBody s.toList ++ '"' :: rest) := by
          show ('"' :: (escapeBody s.toList ++ ['"'])) ++ rest = _
          simp
        rw [hq, pv_step_str fuel _, parseStringBody_escapeBody s.toList rest]
        show some (Json.str (s.toList).asString, rest) = some (Json.str s, rest)
        rw [String.asString_toList]
      | arr xs =>
        cases xs with
        | nil => simp [marshalJson, marshalElems, parseValue, skipWs, isWsChar]
        | cons v vs =>
          have hsz' : sizeJL (v :: vs) ≤ fuel := by
            simp only [sizeJ] at hsz
            omega
          have hnum' : numsOkList (v :: vs) = true := by simpa [numsOk] using hnum
          have hnv : numsOk v = true := by
            simp only [numsOkList, Bool.and_eq_true] at hnum'
            exact hnum'.1
          have hue := ih3 (v :: vs) rest (by simp) hsz' hnum'
          obtain ⟨c0, cs0, hm, hws0, hne0, -⟩ := marshal_head hnv
          obtain ⟨t, ht⟩ : ∃ t, marshalElems (v :: vs) = marshalJson v ++ t := by
            cases vs with
            | nil => exact ⟨[], by simp [marshalElems]⟩
            | cons y ys => exact ⟨',' :: marshalElems (y :: ys), rfl⟩
          have hcs1 : marshalElems (v :: vs) ++ ']' :: rest
              = c0 :: (cs0 ++ (t ++ ']' :: rest)) := by
            rw [ht, hm]
            simp
          have hinput : marshalJson (.arr (v :: vs)) ++ rest
              = '[' :: (marshalElems (v :: vs) ++ ']' :: rest) := by
            show ('[' :: (marshalElems (v :: vs) ++ [']'])) ++ rest = _
            simp
          rw [hinput, hcs1, pv_step_arr hws0 hne0 fuel _, ← hcs1, hue]
      | obj kvs =>
        cases kvs with
        | nil => simp [marshalJson, marshalMembers, parseValue, skipWs, isWsChar]
        | cons kv kvs' =>
          have hsz' : sizeJK (kv :: kvs') ≤ fuel := by
            simp only [sizeJ] at hsz
            omega
          have hnum' : numsOkKvs (kv :: kvs') = true := by simpa [numsOk] using hnum
          have hue := ih2 (kv :: kvs') rest (by simp) hsz' hnum'
          obtain ⟨u, hu⟩ := marshalMembers_head kv kvs'
          have hcs1 : marshalMembers (kv :: kvs') ++ '}' :: rest
              = '"' :: (u ++ '}' :: rest) := by
            rw [hu]
            simp
          have hinput : marshalJson (.obj (kv :: kvs')) ++ rest
              = '{' :: (marshalMembers (kv :: kvs') ++ '}' :: rest) := by
            show ('{' :: (marshalMembers (kv :: kvs') ++ ['}'])) ++ rest = _
            simp
          rw [hinput, hcs1, pv_step_obj (by decide) (by decide) fuel _, ← hcs1, hue]
    · intro kvs rest hne hsz hnums
      cases kvs with
      | nil => exact absurd rfl hne
      | cons kv kvs' =>
        obtain ⟨k, v⟩ := kv
        have hszv : sizeJ v ≤ fuel := by
          simp only [sizeJK] at hsz
          omega
        have hnv : numsOk v = true := by
          simp only [numsOkKvs, Bool.and_eq_true] at hnums
          exact hnums.1
        cases kvs' with
        | nil =>
          have hinput : marshalMembers [(k, v)] ++ '}' :: rest
              = '"' :: (escapeBody k.toList
                  ++ '"' :: (':' :: (marshalJson v ++ '}' :: rest))) := by
            simp [marshalMembers, quoteString]
          rw [hinput]
          have hpv := ih1 v ('}' :: rest) hszv hnv (Or.inr (Or.inr (Or.inl ⟨rest, rfl⟩)))
          rw [pm_run fuel _ _ k.toList v _
            (parseStringBody_escapeBody k.toList (':' :: (marshalJson v ++ '}' :: rest))) hpv]
          show some ([((k.toList).asString, v)], rest) = some ([(k, v)], rest)
          rw [String.asString_toList]
        | cons kv' kvs'' =>
          have hszk : sizeJK (kv' :: kvs'') ≤ fuel := by
            simp only [sizeJK] at hsz ⊢
            omega
          have hnk : numsOkKvs (kv' :: kvs'') = true := by
            simp only [numsOkKvs, Bool.and_eq_true] at hnums ⊢
            exact hnums.2
          have hinput : marshalMembers ((k, v) :: kv' :: kvs'') ++ '}' :: rest
              = '"' :: (escapeBody k.toList ++ '"' :: (':' :: (marshalJson v
                  ++ ',' :: (marshalMembers (kv' :: kvs'') ++ '}' :: rest)))) := by
            simp [marshalMembers, quoteString]
          rw [hinput]
          have hpv := ih1 v (',' :: (marshalMembers (kv' :: kvs'') ++ '}' :: rest)) hszv hnv
            (Or.inr (Or.inl ⟨_, rfl⟩))
          rw [pm_run fuel _ _ k.toList v _
            (parseStringBody_escapeBody k.toList
              (':' :: (marshalJson v ++ ',' :: (marshalMembers (kv' :: kvs'') ++ '}' :: rest))))
            hpv]
          show (match parseMembers fuel (skipWs (marshalMembers (kv' :: kvs'') ++ '}' :: rest))
                  with
                | some (kvs, r) => some (((k.toList).asString, v) :: kvs, r)
                | none => none) = some ((k, v) :: kv' :: kvs'', rest)
          obtain ⟨u, hu⟩ := marshalMembers_head kv' kvs''
          have hskip : skipWs (marshalMembers (kv' :: kvs'') ++ '}' :: rest)
              = marshalMembers (kv' :: kvs'') ++ '}' :: rest := by
            rw [hu]
            exact skipWs_not_ws (by decide) _
          rw [hskip, ih2 (kv' :: kvs'') rest (by simp) hszk hnk]
          show some (((k.toList).asString, v) :: kv' :: kvs'', rest) = _
          rw [String.asString_toList]
    · intro vs rest hne hsz hnums
      cases vs with
      | nil => exact absurd rfl hne
      | cons v vs' =>
        have hszv : sizeJ v ≤ fuel := by
          simp only [sizeJL] at hsz
          omega
        have hnv : numsOk v = true := by
          simp only [numsOkList, Bool.and_eq_true] at hnums
          exact hnums.1
        cases vs' with
        | nil =>
          have hinput : marshalElems [v] ++ ']' :: rest = marshalJson v ++ ']' :: rest := by
            simp [marshalElems]
          have hpv := ih1 v (']' :: rest) hszv hnv (Or.inr (Or.inr (Or.inr ⟨rest, rfl⟩)))
          rw [hinput, pe_run fuel _ v _ hpv]
          rfl
        | cons v' vs'' =>
          have hszl : sizeJL (v' :: vs'') ≤ fuel := by
            simp only [sizeJL] at hsz ⊢
            omega
          have hnl : numsOkList (v' :: vs'') = true := by
            simp only [numsOkList, Bool.and_eq_true] at hnums ⊢
            exact hnums.2
          have hinput : marshalElems (v :: v' :: vs'') ++ ']' :: rest
              = marshalJson v ++ ',' :: (marshalElems (v' :: vs'') ++ ']' :: rest) := by
            simp [marshalElems]
          have hpv := ih1 v (',' :: (marshalElems (v' :: vs'') ++ ']' :: rest)) hszv hnv
            (Or.inr (Or.inl ⟨_, rfl⟩))
          rw [hinput, pe_run fuel _ v _ hpv]
          show (match parseElems fuel (marshalElems (v' :: vs'') ++ ']' :: rest) with
                | some (vs, r) => some (v :: vs, r)
                | none => none) = some (v :: v' :: vs'', rest)
          rw [ih3 (v' :: vs'') rest (by simp) hszl hnl]

mutual

theorem sizeLen_v : ∀ v : Json, numsOk v = true → sizeJ v + 1 ≤ 2 * (marshalJson v).length
  | .null, _ => by decide
  | .bool b, _ => by cases b <;> decide
  | .num tok, h => by
    have hval : numValid tok = true := by simpa [numsOk] using h
    obtain ⟨c, cs, htok, -⟩ := numValid_head hval
    rw [show marshalJson (.num tok) = tok.toList from rfl, htok]
    simp only [sizeJ, List.length_cons]
    omega
  | .str s, _ => by
    rw [show marshalJson (.str s) = '"' :: (escapeBody s.toList ++ ['"']) from rfl]
    simp only [sizeJ, List.length_cons, List.length_append, List.length_nil]
    omega
  | .arr xs, h => by
    have hl := sizeLen_l xs (by simpa [numsOk] using h)
    rw [show marshalJson (.arr xs) = '[' :: (marshalElems xs ++ [']']) from rfl]
    simp only [sizeJ, List.length_cons, List.length_append, List.length_nil]
    omega
  | .obj kvs, h => by
    have hk := sizeLen_k kvs (by simpa [numsOk] using h)
    rw [show marshalJson (.obj kvs) = '{' :: (marshalMembers kvs ++ ['}']) from rfl]
    simp only [sizeJ, List.length_cons, List.length_append, List.length_nil]
    omega

theorem sizeLen_l : ∀ vs : List Json, numsOkList vs = true →
    sizeJL vs + 1 ≤ 2 * (marshalElems vs).length + 2
  | [], _ => by decide
  | [x], h => by
    have hx := sizeLen_v x (by
      rw [show numsOkList [x] = (numsOk x && numsOkList []) from rfl, Bool.and_eq_true] at h
      exact h.1)
    rw [show marshalElems [x] = marshalJson x from rfl]
    simp only [sizeJL]
    omega
  | x :: y :: ys, h => by
    have hh : numsOk x = true ∧ numsOkList (y :: ys) = true := by
      rw [show numsOkList (x :: y :: ys) = (numsOk x && numsOkList (y :: ys)) from rfl,
        Bool.and_eq_true] at h
      exact h
    have hx := sizeLen_v x hh.1
    have hr := sizeLen_l (y :: ys) hh.2
    rw [show marshalElems (x :: y :: ys) = marshalJson x ++ ',' :: marshalElems (y :: ys)
      from rfl,
      show sizeJL (x :: y :: ys) = sizeJ x + sizeJL (y :: ys) + 1 from rfl]
    simp only [List.length_append, List.length_cons]
    omega

theorem sizeLen_k : ∀ kvs : List (String × Json), numsOkKvs kvs = true →
    sizeJK kvs + 1 ≤ 2 * (marshalMembers kvs).length + 2
  | [], _ => by decide
  | [kv], h => by
    have hx := sizeLen_v kv.2 (by
      rw [show numsOkKvs [kv] = (numsOk kv.2 && numsOkKvs []) from rfl,
        Bool.and_eq_true] at h
      exact h.1)
    rw [show marshalMembers [kv] = quoteString kv.1 ++ ':' :: marshalJson kv.2 from rfl]
    simp only [sizeJK, List.length_append, List.length_cons, quoteString, List.length_nil]
    omega
  | kv :: kv' :: kvs, h => by
    have hh : numsOk kv.2 = true ∧ numsOkKvs (kv' :: kvs) = true := by
      rw [show numsOkKvs (kv :: kv' :: kvs) = (numsOk kv.2 && numsOkKvs (kv' :: kvs)) from rfl,
        Bool.and_eq_true] at h
      exact h
    have hx := sizeLen_v kv.2 hh.1
    have hr := sizeLen_k (kv' :: kvs) hh.2
    rw [show marshalMembers (kv :: kv' :: kvs)
      = quoteString kv.1 ++ ':' :: marshalJson kv.2 ++ ',' :: marshalMembers (kv' :: kvs)
      from rfl,
      show sizeJK (kv :: kv' :: kvs) = sizeJ kv.2 + sizeJK (kv' :: kvs) + 1 from rfl]
    simp only [List.length_append, List.length_cons, quoteString, List.length_nil]
    omega

end

theorem numsOkKvs_insertSorted {k : String} {v : Json} (hv : numsOk v = true) :
    ∀ {l : List (String × Json)}, numsOkKvs l = true → numsOkKvs (insertSorted k v l) = true := by
  intro l
  induction l with
  | nil =>
    intro _
    simp [insertSorted, numsOkKvs, hv]
  | cons hd tl ih =>
    obtain ⟨k', v'⟩ := hd
    intro h
    rw [show numsOkKvs ((k', v') :: tl) = (numsOk v' && numsOkKvs tl) from rfl,
      Bool.and_eq_true] at h
    unfold insertSorted
    by_cases h1 : strLtb k k' = true
    · rw [if_pos h1]
      simp [numsOkKvs, hv, h.1, h.2]
    · rw [if_neg h1]
      by_cases h2 : k = k'
      · rw [if_pos h2]
        simp [numsOkKvs, hv, h.2]
      · rw [if_neg h2]
        simp [numsOkKvs, h.1, ih h.2]

theorem wfJsonKvs_insertSorted {k : String} {v : Json} (hv : wfJson v = true) :
    ∀ {l : List (String × Json)}, wfJsonKvs l = true → wfJsonKvs (insertSorted k v l) = true := by
  intro l
  induction l with
  | nil =>
    intro _
    simp [insertSorted, wfJsonKvs, hv]
  | cons hd tl ih =>
    obtain ⟨k', v'⟩ := hd
    intro h
    rw [show wfJsonKvs ((k', v') :: tl) = (wfJson v' && wfJsonKvs tl) from rfl,
      Bool.and_eq_true] at h
    unfold insertSorted
    by_cases h1 : strLtb k k' = true
    · rw [if_pos h1]
      simp [wfJsonKvs, hv, h.1, h.2]
    · rw [if_neg h1]
      by_cases h2 : k = k'
      · rw [if_pos h2]
        simp [wfJsonKvs, hv, h.2]
      · rw [if_neg h2]
        simp [wfJsonKvs, h.1, ih h.2]

theorem goValObj_pairwise : ∀ (kvs acc : List (String × Json)),
    acc.Pairwise (fun x y => keyLt x.1 y.1) →
    (goValObj kvs acc).Pairwise (fun x y => keyLt x.1 y.1)
  | [], _, h => h
  | kv :: kvs, acc, h =>
    goValObj_pairwise kvs _ (insertSorted_pairwise h)

mutual

theorem goVal_numsOk : ∀ v : Json, numsOk v = true → numsOk (goVal v) = true
  | .null, h => h
  | .bool _, h => h
  | .num _, h => h
  | .str _, h => h
  | .arr xs, h => by
    rw [show goVal (.arr xs) = .arr (goValList xs) from rfl,
      show numsOk (.arr (goValList xs)) = numsOkList (goValList xs) from rfl]
    exact goValList_numsOk xs (by simpa [numsOk] using h)
  | .obj kvs, h => by
    rw [show goVal (.obj kvs) = .obj (goValObj kvs []) from rfl,
      show numsOk (.obj (goValObj kvs [])) = numsOkKvs (goValObj kvs []) from rfl]
    exact goValObj_numsOk kvs [] (by simpa [numsOk] using h) rfl

theorem goValList_numsOk : ∀ vs : List Json, numsOkList vs = true →
    numsOkList (goValList vs) = true
  | [], h => h
  | x :: xs, h => by
    rw [show numsOkList (x :: xs) = (numsOk x && numsOkList xs) from rfl,
      Bool.and_eq_true] at h
    rw [show goValList (x :: xs) = goVal x :: goValList xs from rfl,
      show numsOkList (goVal x :: goValList xs)
        = (numsOk (goVal x) && numsOkList (goValList xs)) from rfl,
      Bool.and_eq_true]
    exact ⟨goVal_numsOk x h.1, goValList_numsOk xs h.2⟩

theorem goValObj_numsOk : ∀ (kvs acc : List (String × Json)), numsOkKvs kvs = true →
    numsOkKvs acc = true → numsOkKvs (goValObj kvs acc) = true
  | [], _, _, hacc => hacc
  | kv :: kvs, acc, h, hacc => by
    rw [show numsOkKvs (kv :: kvs) = (numsOk kv.2 && numsOkKvs kvs) from rfl,
      Bool.and_eq_true] at h
    rw [show goValObj (kv :: kvs) acc = goValObj kvs (insertSorted kv.1 (goVal kv.2) acc)
      from rfl]
    exact goValObj_numsOk kvs _ h.2 (numsOkKvs_insertSorted (goVal_numsOk kv.2 h.1) hacc)

end

mutual

theorem goVal_wf : ∀ v : Json, wfJson (goVal v) = true
  | .null => rfl
  | .bool _ => rfl
  | .num _ => rfl
  | .str _ => rfl
  | .arr xs => by
    rw [show goVal (.arr xs) = .arr (goValList xs) from rfl,
      show wfJson (.arr (goValList xs)) = wfJsonList (goValList xs) from rfl]
    exact goValList_wf xs
  | .obj kvs => by
    rw [show goVal (.obj kvs) = .obj (goValObj kvs []) from rfl,
      show wfJson (.obj (goValObj kvs []))
        = (keysSorted (goValObj kvs []) && wfJsonKvs (goValObj kvs [])) from rfl,
      Bool.and_eq_true]
    exact ⟨(keysSorted_iff_pairwise _).mpr (goValObj_pairwise kvs [] (by simp)),
      goValObj_wfKvs kvs [] rfl⟩

theorem goValList_wf : ∀ vs : List Json, wfJsonList (goValList vs) = true
  | [] => rfl
  | x :: xs => by
    rw [show goValList (x :: xs) = goVal x :: goValList xs from rfl,
      show wfJsonList (goVal x :: goValList xs)
        = (wfJson (goVal x) && wfJsonList (goValList xs)) from rfl,
      Bool.and_eq_true]
    exact ⟨goVal_wf x, goValList_wf xs⟩

theorem goValObj_wfKvs : ∀ (kvs acc : List (String × Json)), wfJsonKvs acc = true →
    wfJsonKvs (goValObj kvs acc) = true
  | [], _, hacc => hacc
  | kv :: kvs, acc, hacc => by
    rw [show goValObj (kv :: kvs) acc = goValObj kvs (insertSorted kv.1 (goVal kv.2) acc)
      from rfl]
    exact goValObj_wfKvs kvs _ (wfJsonKvs_insertSorted (goVal_wf kv.2) hacc)

end

theorem goValObj_id : ∀ (kvs acc : List (String × Json)),
    (acc ++ kvs).Pairwise (fun x y => keyLt x.1 y.1) →
    (∀ kv ∈ kvs, goVal kv.2 = kv.2) →
    goValObj kvs acc = acc ++ kvs := by
  intro kvs
  induction kvs with
  | nil =>
    intro acc _ _
    simp [goValObj]
  | cons kv kvs ih =>
    intro acc hp hfix
    obtain ⟨k, v⟩ := kv
    rw [show goValObj ((k, v) :: kvs) acc = goValObj kvs (insertSorted k (goVal v) acc)
      from rfl]
    have hfx : goVal v = v := hfix (k, v) (List.mem_cons_self _ _)
    rw [hfx]
    have hlt : ∀ kv' ∈ acc, keyLt kv'.1 k := by
      intro kv' hkv'
      exact (List.pairwise_append.mp hp).2.2 kv' hkv' (k, v) (List.mem_cons_self _ _)
    rw [insertSorted_append hlt]
    have hassoc : acc ++ (k, v) :: kvs = (acc ++ [(k, v)]) ++ kvs := by simp
    have hp' : ((acc ++ [(k, v)]) ++ kvs).Pairwise (fun x y => keyLt x.1 y.1) := by
      rw [← hassoc]
      exact hp
    rw [ih (acc ++ [(k, v)]) hp' (fun kv' h' => hfix kv' (List.mem_cons_of_mem _ h'))]
    simp

mutual

theorem goVal_id : ∀ v : Json, wfJson v = true → goVal v = v
  | .null, _ => rfl
  | .bool _, _ => rfl
  | .num _, _ => rfl
  | .str _, _ => rfl
  | .arr xs, h => by
    rw [show goVal (.arr xs) = .arr (goValList xs) from rfl,
      goValList_id xs (by simpa [wfJson] using h)]
  | .obj kvs, h => by
    rw [show wfJson (.obj kvs) = (keysSorted kvs && wfJsonKvs kvs) from rfl,
      Bool.and_eq_true] at h
    rw [show goVal (.obj kvs) = .obj (goValObj kvs []) from rfl,
      goValObj_id kvs [] (by simpa using (keysSorted_iff_pairwise kvs).mp h.1)
        (goValKvs_fix kvs h.2)]
    rfl

theorem goValList_id : ∀ vs : List Json, wfJsonList vs = true → goValList vs = vs
  | [], _ => rfl
  | x :: xs, h => by
    rw [show wfJsonList (x :: xs) = (wfJson x && wfJsonList xs) from rfl,
      Bool.and_eq_true] at h
    rw [show goValList (x :: xs) = goVal x :: goValList xs from rfl,
      goVal_id x h.1, goValList_id xs h.2]

theorem goValKvs_fix : ∀ kvs : List (String × Json), wfJsonKvs kvs = true →
    ∀ kv ∈ kvs, goVal kv.2 = kv.2
  | [], _ => by
    intro kv hkv
    cases hkv
  | kv0 :: kvs, h => by
    rw [show wfJsonKvs (kv0 :: kvs) = (wfJson kv0.2 && wfJsonKvs kvs) from rfl,
      Bool.and_eq_true] at h
    intro kv hkv
    rcases List.mem_cons.mp hkv with heq | hmem
    · rw [heq]
      exact goVal_id kv0.2 h.1
    · exact goValKvs_fix kvs h.2 kv hmem

end

/-- Every value the fuel-indexed parser produces carries only valid number
tokens (Go's scanner validated them as it read them). -/
theorem parse_numsOk_aux : ∀ fuel : Nat,
    (∀ cs v rest, parseValue fuel cs = some (v, rest) → numsOk v = true)
    ∧ (∀ cs kvs rest, parseMembers fuel cs = some (kvs, rest) → numsOkKvs kvs = true)
    ∧ (∀ cs vs rest, parseElems fuel cs = some (vs, rest) → numsOkList vs = true) := by
  intro fuel
  induction fuel with
  | zero =>
    refine ⟨?_, ?_, ?_⟩ <;> intro cs a rest h <;>
      simp [parseValue, parseMembers, parseElems] at h
  | succ fuel ih =>
    obtain ⟨ih1, ih2, ih3⟩ := ih
    refine ⟨?_, ?_, ?_⟩
    · intro cs v rest h
      simp only [parseValue] at h
      split at h
      · simp at h
      · split at h
        · split at h
          · simp only [Option.some.injEq, Prod.mk.injEq] at h
            obtain ⟨h1, -⟩ := h
            subst h1
            rfl
          · split at h
            · rename_i kvs0 r heq
              simp only [Option.some.injEq, Prod.mk.injEq] at h
              obtain ⟨h1, -⟩ := h
              subst h1
              exact ih2 _ _ _ heq
            · simp at h
        · split at h
          · split at h
            · simp only [Option.some.injEq, Prod.mk.injEq] at h
              obtain ⟨h1, -⟩ := h
              subst h1
              rfl
            · split at h
              · rename_i vs0 r heq
                simp only [Option.some.injEq, Prod.mk.injEq] at h
                obtain ⟨h1, -⟩ := h
                subst h1
                exact ih3 _ _ _ heq
              · simp at h
          · split at h
            · split at h
              · simp only [Option.some.injEq, Prod.mk.injEq] at h
                obtain ⟨h1, -⟩ := h
                subst h1
                rfl
              · simp at h
            · split at h
              · split at h
                · simp only [Option.some.injEq, Prod.mk.injEq] at h
                  obtain ⟨h1, -⟩ := h
                  subst h1
                  rfl
                · simp at h
              · split at h
                · split at h
                  · simp only [Option.some.injEq, Prod.mk.injEq] at h
                    obtain ⟨h1, -⟩ := h
                    subst h1
                    rfl
                  · simp at h
                · split at h
                  · split at h
                    · simp only [Option.some.injEq, Prod.mk.injEq] at h
                      obtain ⟨h1, -⟩ := h
                      subst h1
                      rfl
                    · simp at h
                  · split at h
                    · rename_i tok r heq
                      simp only [Option.some.injEq, Prod.mk.injEq] at h
                      obtain ⟨h1, -⟩ := h
                      subst h1
                      exact numValid_of_parse heq
                    · simp at h
    · intro cs kvs rest h
      simp only [parseMembers] at h
      split at h
      · split at h
        · split at h
          · split at h
            · rename_i v0 cs4 heqv
              split at h
              · split at h
                · rename_i kvs0 r heqm
                  simp only [Option.some.injEq, Prod.mk.injEq] at h
                  obtain ⟨h1, -⟩ := h
                  subst h1
                  simp [numsOkKvs, ih1 _ _ _ heqv, ih2 _ _ _ heqm]
                · simp at h
              · simp only [Option.some.injEq, Prod.mk.injEq] at h
                obtain ⟨h1, -⟩ := h
                subst h1
                simp [numsOkKvs, ih1 _ _ _ heqv]
              · simp at h
            · simp at h
          · simp at h
        · simp at h
      · simp at h
    · intro cs vs rest h
      simp only [parseElems] at h
      split at h
      · rename_i v0 cs1 heqv
        split at h
        · split at h
          · rename_i vs0 r heqe
            simp only [Option.some.injEq, Prod.mk.injEq] at h
            obtain ⟨h1, -⟩ := h
            subst h1
            simp [numsOkList, ih1 _ _ _ heqv, ih3 _ _ _ heqe]
          · simp at h
        · simp only [Option.some.injEq, Prod.mk.injEq] at h
          obtain ⟨h1, -⟩ := h
          subst h1
          simp [numsOkList, ih1 _ _ _ heqv]
        · simp at h
      · simp at h

/-- `json.Unmarshal` inverts `json.Marshal` on any value whose number tokens
are valid. -/
theorem parseJson_marshalJson {v : Json} (h : numsOk v = true) :
    parseJson ((marshalJson v).asString) = some v := by
  have hlist : ((marshalJson v).asString).toList = marshalJson v := List.toList_asString _
  have hfuel : sizeJ v ≤ 2 * (marshalJson v).length + 2 := by
    have := sizeLen_v v h
    omega
  have hrt := (parse_marshal_aux (2 * (marshalJson v).length + 2)).1 v [] hfuel h (Or.inl rfl)
  rw [List.append_nil] at hrt
  rw [show parseJson ((marshalJson v).asString)
    = (match parseValue (2 * ((marshalJson v).asString).toList.length + 2)
        ((marshalJson v).asString).toList with
      | some (w, rest) => if skipWs rest = [] then some w else none
      | none => none) from rfl]
  rw [hlist, hrt]
  simp [skipWs]

/-- Any value `json.Unmarshal` produces carries only valid number tokens. -/
theorem parseJson_numsOk {s : String} {v : Json} (h : parseJson s = some v) :
    numsOk v = true := by
  simp only [parseJson] at h
  split at h
  · rename_i w rest heq
    split at h
    · simp only [Option.some.injEq] at h
      subst h
      exact (parse_numsOk_aux _).1 _ _ _ heq
    · simp at h
  · simp at h

theorem unmarshal_marshal_entries {entries : List (String × Json)}
    (hnum : numsOkKvs entries = true) :
    unmarshalIntoMap (some []) ((marshalJson (.obj entries)).asString)
      = .ok (some (goValObj entries [])) := by
  simp only [unmarshalIntoMap]
  rw [parseJson_marshalJson (show numsOk (.obj entries) = true from hnum)]

/-- `normalizeDataJSON` on a successfully unmarshalled blob re-marshals the
decoded map. -/
theorem normalize_of_unmarshal {x : String} {m : Option (List (String × Json))}
    (h : unmarshalIntoMap (some []) x = .ok m) :
    normalizeDataJSON x = marshalGoMap m := by
  simp only [normalizeDataJSON]
  rw [h]

/-- A successful unmarshal into the non-nil empty map yields a canonical
(sorted, recursively canonical, valid-number) listing. -/
theorem unmarshal_ok_shape {x : String} {m : Option (List (String × Json))}
    (h : unmarshalIntoMap (some []) x = .ok m) :
    ∃ entries, m = some entries ∧ numsOkKvs entries = true ∧ wfJsonKvs entries = true
      ∧ keysSorted entries = true := by
  simp only [unmarshalIntoMap] at h
  split at h
  · simp at h
  · rename_i kvs heq
    simp only [Except.ok.injEq] at h
    refine ⟨goValObj kvs [], h.symm, ?_, ?_, ?_⟩
    · have hn : numsOkKvs kvs = true := parseJson_numsOk heq
      exact goValObj_numsOk kvs [] hn rfl
    · exact goValObj_wfKvs kvs [] rfl
    · exact (keysSorted_iff_pairwise _).mpr (goValObj_pairwise kvs [] (by simp))
  · simp only [Except.ok.injEq] at h
    exact ⟨[], h.symm, rfl, rfl, rfl⟩
  · simp at h

theorem marshalGoMap_normalize_fix {entries : List (String × Json)}
    (hnum : numsOkKvs entries = true) (hwf : wfJsonKvs entries = true)
    (hsort : keysSorted entries = true) :
    normalizeDataJSON (marshalGoMap (some entries)) = marshalGoMap (some entries) := by
  have hun : unmarshalIntoMap (some []) (marshalGoMap (some entries))
      = .ok (some (goValObj entries [])) := by
    rw [show marshalGoMap (some entries) = (marshalJson (.obj entries)).asString from rfl]
    exact unmarshal_marshal_entries hnum
  have hid : goValObj entries [] = entries := by
    have hgv := goVal_id (.obj entries) (by
      rw [show wfJson (.obj entries) = (keysSorted entries && wfJsonKvs entries) from rfl]
      simp [hsort, hwf])
    rw [show goVal (.obj entries) = .obj (goValObj entries []) from rfl] at hgv
    injection hgv
  rw [normalize_of_unmarshal hun, hid]

/-- C8: For every string x that validate accepts, canonicalize
(normalizeDataJSON) is idempotent: normalizeDataJSON (normalizeDataJSON x)
equals normalizeDataJSON x. -/
theorem normalizeDataJSON_idempotent (x : String) (h : validateDataJSON x = []) :
    normalizeDataJSON (normalizeDataJSON x) = normalizeDataJSON x := by
  obtain ⟨m, hm⟩ : ∃ m, unmarshalIntoMap (some []) x = .ok m := by
    simp only [validateDataJSON] at h
    split at h
    · simp at h
    · rename_i m heq
      exact ⟨m, heq⟩
  obtain ⟨entries, rfl, hnum, hwf, hsort⟩ := unmarshal_ok_shape hm
  rw [normalize_of_unmarshal hm]
  exact marshalGoMap_normalize_fix hnum hwf hsort

theorem normalizeDataJSON_idempotent_witness :
    validateDataJSON "\x7b\"b\":2,\"a\":1\x7d" = []
      ∧ normalizeDataJSON (normalizeDataJSON "\x7b\"b\":2,\"a\":1\x7d")
          = normalizeDataJSON "\x7b\"b\":2,\"a\":1\x7d" :=
  ⟨by decide, normalizeDataJSON_idempotent _ (by decide)⟩

theorem stripComputed_go (E : List String) : ∀ (data acc : List (String × Json)),
    (acc ++ data).Pairwise (fun x y => keyLt x.1 y.1) →
    data.foldl
        (fun marshalledData kv =>
          if !contains E kv.1 then insertSorted kv.1 kv.2 marshalledData
          else marshalledData)
        acc
      = acc ++ data.filter (fun kv => !contains E kv.1) := by
  intro data
  induction data with
  | nil =>
    intro acc _
    simp
  | cons kv data ih =>
    intro acc hp
    obtain ⟨k, v⟩ := kv
    rw [List.foldl_cons]
    by_cases hc : contains E k = true
    · rw [show (if !contains E (k, v).1 then insertSorted (k, v).1 (k, v).2 acc else acc)
          = acc from by simp [hc]]
      have hsub : (acc ++ data).Sublist (acc ++ (k, v) :: data) :=
        List.Sublist.append_left ((List.Sublist.refl _).cons _) acc
      rw [ih acc (List.Pairwise.sublist hsub hp)]
      rw [show List.filter (fun kv => !contains E kv.1) ((k, v) :: data)
          = List.filter (fun kv => !contains E kv.1) data from by
        simp [List.filter_cons, hc]]
    · have hc' : contains E k = false := by
        cases hcc : contains E k
        · rfl
        · exact absurd hcc hc
      rw [show (if !contains E (k, v).1 then insertSorted (k, v).1 (k, v).2 acc else acc)
          = insertSorted k v acc from by simp [hc']]
      have hlt : ∀ kv' ∈ acc, keyLt kv'.1 k := by
        intro kv' hkv'
        exact (List.pairwise_append.mp hp).2.2 kv' hkv' (k, v) (List.mem_cons_self _ _)
      rw [insertSorted_append hlt]
      have hassoc : acc ++ (k, v) :: data = (acc ++ [(k, v)]) ++ data := by simp
      have hp' : ((acc ++ [(k, v)]) ++ data).Pairwise (fun x y => keyLt x.1 y.1) := by
        rw [← hassoc]
        exact hp
      rw [ih (acc ++ [(k, v)]) hp']
      rw [show List.filter (fun kv => !contains E kv.1) ((k, v) :: data)
          = (k, v) :: List.filter (fun kv => !contains E kv.1) data from by
        simp [List.filter_cons, hc']]
      simp

/-- On a canonically sorted map listing, the drift-filter loop is exactly
`List.filter` by non-membership in the registry. -/
theorem stripComputed_filter (E : List String) (R : List (String × Json))
    (hs : keysSorted R = true) :
    stripComputed E R = R.filter (fun kv => !contains E kv.1) := by
  have hp : (([] : List (String × Json)) ++ R).Pairwise (fun x y => keyLt x.1 y.1) := by
    simpa using (keysSorted_iff_pairwise R).mp hs
  simpa [stripComputed] using stripComputed_go E R [] hp

/-- C5: For a remote configuration map R (canonically listed) and registry E,
both drift filters keep exactly the entries of R whose key is not in E, with
values unchanged, and output the serialization of that filtered mapping: the
plugin filter on the decoded map R, and the consumer filter on any body blob
that unmarshals to R. -/
theorem drift_filter_exact (E : List String) (R : List (String × Json))
    (hs : keysSorted R = true) (body : String)
    (hbody : unmarshalIntoMap (some []) body = .ok (some R)) :
    (∀ kv, kv ∈ stripComputed E R ↔ kv ∈ R ∧ contains E kv.1 = false)
    ∧ pluginConfigJsonToString E R
        = (marshalJson (.obj (R.filter fun kv => !contains E kv.1))).asString
    ∧ consumerPluginConfigJsonToString E body
        = .ok ((marshalJson (.obj (R.filter fun kv => !contains E kv.1))).asString) := by
  have hf := stripComputed_filter E R hs
  refine ⟨?_, ?_, ?_⟩
  · intro kv
    rw [hf, List.mem_filter]
    simp
  · rw [show pluginConfigJsonToString E R
        = (marshalJson (.obj (stripComputed E R))).asString from rfl, hf]
  · rw [show consumerPluginConfigJsonToString E body
        = (match unmarshalIntoMap (some []) body with
          | .error e => .error e
          | .ok data =>
            .ok ((marshalJson (.obj (stripComputed E
              (match data with | some m => m | none => [])))).asString)) from rfl,
      hbody]
    show Except.ok ((marshalJson (.obj (stripComputed E R))).asString) = _
    rw [hf]

theorem drift_filter_exact_witness :
    keysSorted [("a", Json.num "1"), ("id", Json.num "2")] = true
    ∧ unmarshalIntoMap (some []) "\x7b\"a\":1,\"id\":2\x7d"
        = .ok (some [("a", Json.num "1"), ("id", Json.num "2")])
    ∧ pluginConfigJsonToString ["id"] [("a", Json.num "1"), ("id", Json.num "2")]
        = (marshalJson (.obj (([("a", Json.num "1"), ("id", Json.num "2")]).filter
            fun kv => !contains ["id"] kv.1))).asString
    ∧ consumerPluginConfigJsonToString ["id"] "\x7b\"a\":1,\"id\":2\x7d"
        = .ok ((marshalJson (.obj (([("a", Json.num "1"), ("id", Json.num "2")]).filter
            fun kv => !contains ["id"] kv.1))).asString) :=
  ⟨by decide, by decide,
    (drift_filter_exact ["id"] [("a", Json.num "1"), ("id", Json.num "2")] (by decide)
      "\x7b\"a\":1,\"id\":2\x7d" (by decide)).2.1,
    (drift_filter_exact ["id"] [("a", Json.num "1"), ("id", Json.num "2")] (by decide)
      "\x7b\"a\":1,\"id\":2\x7d" (by decide)).2.2⟩
